import Mathlib

/-!
# Verification of `update_logos.py` (italian-guide repository)

A shallow embedding of the logo-resolution core of `update_logos.py`:
the slugifier, the per-document deduplicator, the cache probe and
fetch/decode worker, the rewriter, the atomic persister, and the main
driver loop.  Python strings are modelled as Lean `String`s (ASCII case
mapping and ASCII whitespace, which covers every constant appearing in
the program); the filesystem is modelled as an association list from
path to file content, with image assets tracked separately as the list
of existing destination paths; the network is an oracle mapping the
request counter to a response.  Fetch tasks run sequentially in the
model: tasks are independent and results are keyed by show name, so the
thread pool's completion order is irrelevant to every property below.
-/

/-! ## Configuration constants (from the Config section of the script) -/

def FALLBACK_LOGO_URL : String :=
  "https://tv-programma.it/wp-content/uploads/2026/02/sample-image.webp"

def RETRY_COUNT : Nat := 3

/-! ## Python string helpers

`pyStrip` models `str.strip()` (ASCII whitespace), `pyStartsWith`
models `str.startswith`, and `pyLower` models `str.lower` on the ASCII
range (`Char.toLower` lower-cases exactly `A`–`Z`). -/

def pyStrip (s : String) : String :=
  ⟨((s.data.dropWhile Char.isWhitespace).reverse.dropWhile Char.isWhitespace).reverse⟩

def pyStartsWith (s p : String) : Bool :=
  List.isPrefixOf p.data s.data

/-! ## Namer: `slugify`

`slugify` lower-cases the name, collapses every run of characters
outside `[a-z0-9]` to a single `-`, strips leading/trailing `-`, and
falls back to `"unknown"` when the result is empty.  The second
`re.sub(r"-+", "-", ...)` of the source is subsumed: collapsing runs in
one pass already never emits two adjacent separators. -/

def slugChar (c : Char) : Bool :=
  ('a' ≤ c && c ≤ 'z') || ('0' ≤ c && c ≤ '9')

def collapseRuns (lastSep : Bool) : List Char → List Char
  | [] => []
  | c :: cs =>
    if slugChar c then c :: collapseRuns false cs
    else if lastSep then collapseRuns true cs
    else '-' :: collapseRuns true cs

def stripDashes (l : List Char) : List Char :=
  ((l.dropWhile (fun c => c = '-')).reverse.dropWhile (fun c => c = '-')).reverse

def slugify (nm : String) : String :=
  let stripped := stripDashes (collapseRuns false (nm.data.map Char.toLower))
  if stripped.isEmpty then "unknown" else ⟨stripped⟩

/-! ## Path helpers

`lastComponent` models `Path.name`, `pathStem` models `Path.stem`
(final component without its last extension; every call site passes a
`*.json` file discovered by `glob`), and `withSuffixTmp` models
`Path.with_suffix(".tmp")` on those same `*.json` paths. -/

def lastComponent (p : String) : String :=
  ⟨(p.data.reverse.takeWhile (fun c => c ≠ '/')).reverse⟩

def pathStem (p : String) : String :=
  let nm := lastComponent p
  if nm.data.contains '.' then ⟨((nm.data.reverse.dropWhile (fun c => c ≠ '.')).drop 1).reverse⟩
  else nm

def pyEndsWith (s suf : String) : Bool :=
  List.isPrefixOf suf.data.reverse s.data.reverse

def withSuffixTmp (p : String) : String :=
  (if pyEndsWith p ".json" then ⟨(p.data.reverse.drop 5).reverse⟩ else p) ++ ".tmp"

/-! ## Data model

`ProgramEntry` is one element of a document's `programs` array:
`show_name` and `show_logo` are the fields the core reads/writes, the
five remaining fields are opaque pass-through data.  `Document` is one
schedule document; `channel_name`, `date` and any other surrounding
JSON data are pass-through and collapsed into `rest`.  `FileContent`
is the parse-level view of a file's bytes: either a document or bytes
that `json.loads` rejects. -/

structure ProgramEntry where
  show_name : String
  show_logo : String
  start_time : String
  end_time : String
  episode_number : String
  show_category : String
  show_description : String
deriving DecidableEq, Repr

instance : Inhabited ProgramEntry := ⟨⟨"", "", "", "", "", "", ""⟩⟩

structure Document where
  rest : String
  programs : List ProgramEntry
deriving DecidableEq, Repr

inductive FileContent where
  | invalidJson (raw : String)
  | doc (d : Document)
deriving DecidableEq, Repr

/-! ## Filesystem model for schedule documents

An association list from path to content; `fsSet` replaces the first
binding in place (appending when absent), `fsRemove` models `unlink`,
`fsGet` models reading. -/

/-- First-match lookup in an insertion-ordered association list (a Python
`dict` read, and `Path.read_text` on the filesystem model). -/
def alookup {α : Type} : List (String × α) → String → Option α
  | [], _ => none
  | (k, v) :: rest, s => if k = s then some v else alookup rest s

abbrev Fs := List (String × FileContent)

def fsGet (fs : Fs) (p : String) : Option FileContent :=
  alookup fs p

def fsSet : Fs → String → FileContent → Fs
  | [], p, v => [(p, v)]
  | (q, w) :: rest, p, v =>
    if q = p then (q, v) :: rest else (q, w) :: fsSet rest p v

def fsRemove (fs : Fs) (p : String) : Fs :=
  fs.filter (fun e => e.1 ≠ p)

abbrev fsKeys (fs : Fs) : List String :=
  fs.map Prod.fst

/-! ## Deduplicator

The loop of `process_json_file` over `enumerate(programs)` builds two
insertion-ordered dicts: `show_to_url` (show name → first `http`-prefixed
stripped URL) and `show_to_indexes` (show name → every row index), both
keyed by the stripped show name and skipping blank names.  The two
dicts are built independently of each other, so the single Python loop
is split into two folds. -/

def addIndex : List (String × List Nat) → String → Nat → List (String × List Nat)
  | [], k, i => [(k, [i])]
  | (k', l) :: rest, k, i =>
    if k' = k then (k', l ++ [i]) :: rest else (k', l) :: addIndex rest k i

def dedupIdxAux : List ProgramEntry → Nat → List (String × List Nat) → List (String × List Nat)
  | [], _, m => m
  | r :: rs, i, m =>
    let s := pyStrip r.show_name
    if s = "" then dedupIdxAux rs (i + 1) m
    else dedupIdxAux rs (i + 1) (addIndex m s i)

def dedupIndexes (progs : List ProgramEntry) : List (String × List Nat) :=
  dedupIdxAux progs 0 []

def dedupUrlAux : List ProgramEntry → List (String × String) → List (String × String)
  | [], m => m
  | r :: rs, m =>
    let s := pyStrip r.show_name
    let u := pyStrip r.show_logo
    if s = "" then dedupUrlAux rs m
    else if (alookup m s).isNone && pyStartsWith u "http" then dedupUrlAux rs (m ++ [(s, u)])
    else dedupUrlAux rs m

def dedupUrls (progs : List ProgramEntry) : List (String × String) :=
  dedupUrlAux progs []

/-! ## Fetch tasks, cache probe, worker pool

`mkTasks` is the `for show_name, url in show_to_url.items()` loop:
one task per show with a canonical URL, destination
`{out_root}/{channel_folder}/{day}/{slug}.webp`.  The network is an
oracle `fetch : url → request counter → response?`; `decodable` says
whether downloaded bytes open as an image (`UnidentifiedImageError`
otherwise).  `downloadAux` models `download_with_retries`: up to
`RETRY_COUNT` requests, counting each one.  `worker` probes the cache
first, then downloads and transcodes; its outcome is `cached` when the
destination already exists, `fetched` on success, `failed` when the
download exhausts retries or the bytes do not decode. -/

structure FetchTask where
  show_name : String
  url : String
  out_path : String
deriving DecidableEq, Repr

def mkTasks (urls : List (String × String)) (out_root channel_folder day : String) :
    List FetchTask :=
  urls.map (fun su =>
    ⟨su.1, su.2, out_root ++ "/" ++ channel_folder ++ "/" ++ day ++ "/" ++ slugify su.1 ++ ".webp"⟩)

structure Net where
  fetch : String → Nat → Option String
  decodable : String → Bool

def downloadAux (net : Net) (url : String) : Nat → Nat → Option String × Nat
  | c, 0 => (none, c)
  | c, n + 1 =>
    match net.fetch url c with
    | some bytes => (some bytes, c + 1)
    | none => downloadAux net url (c + 1) n

def download_with_retries (net : Net) (url : String) (c : Nat) : Option String × Nat :=
  downloadAux net url c RETRY_COUNT

inductive Outcome where
  | cached
  | fetched
  | failed
deriving DecidableEq, Repr

structure WorkerResult where
  show_name : String
  out_path : String
  outcome : Outcome
deriving DecidableEq, Repr

def worker (net : Net) (t : FetchTask) (images : List String) (c : Nat) :
    WorkerResult × List String × Nat :=
  if t.out_path ∈ images then (⟨t.show_name, t.out_path, .cached⟩, images, c)
  else
    match download_with_retries net t.url c with
    | (none, c') => (⟨t.show_name, t.out_path, .failed⟩, images, c')
    | (some bytes, c') =>
      if net.decodable bytes then (⟨t.show_name, t.out_path, .fetched⟩, t.out_path :: images, c')
      else (⟨t.show_name, t.out_path, .failed⟩, images, c')

def runTasks (net : Net) : List FetchTask → List String → Nat →
    List WorkerResult × List String × Nat
  | [], images, c => ([], images, c)
  | t :: ts, images, c =>
    let (r, images', c') := worker net t images c
    let (rs, images'', c'') := runTasks net ts images' c'
    (r :: rs, images'', c'')

/-! ## Rewriter

`resolveUrl` is the per-show branch of the update loop: a show that was
never a task (no canonical URL) or whose task errored gets
`FALLBACK_LOGO_URL`; otherwise the public URL
`{base_url}/{out_root_name}/{channel_folder}/{day}/{slug}.webp`.
`rewriteAll` walks `show_to_indexes` in insertion order and assigns the
resolved URL to `show_logo` at every recorded row index. -/

def publicUrl (base_url out_root_name channel_folder day sname : String) : String :=
  base_url ++ "/" ++ out_root_name ++ "/" ++ channel_folder ++ "/" ++ day ++ "/" ++
    slugify sname ++ ".webp"

def resolveUrl (results : List WorkerResult)
    (base_url out_root_name channel_folder day sname : String) : String :=
  match results.find? (fun r => r.show_name = sname) with
  | none => FALLBACK_LOGO_URL
  | some r =>
    if r.outcome = .failed then FALLBACK_LOGO_URL
    else publicUrl base_url out_root_name channel_folder day sname

def setLogoAt (u : String) : List ProgramEntry → Nat → List ProgramEntry
  | [], _ => []
  | p :: ps, 0 => { p with show_logo := u } :: ps
  | p :: ps, n + 1 => p :: setLogoAt u ps n

def applyGroup (progs : List ProgramEntry) (idxs : List Nat) (u : String) :
    List ProgramEntry :=
  idxs.foldl (fun ps i => setLogoAt u ps i) progs

def rewriteAll (resolve : String → String) (G : List (String × List Nat))
    (progs : List ProgramEntry) : List ProgramEntry :=
  G.foldl (fun ps g => applyGroup ps g.2 (resolve g.1)) progs

/-! ## Persister

Atomic save: serialize to `json_path.with_suffix(".tmp")`, then
`os.replace` it over the original; on any failure (`writeOk`/`replaceOk`
inject the fault) the handler unlinks the temporary file when it exists
and leaves the original alone. -/

def persistStep (fs : Fs) (json_path : String) (content : FileContent)
    (writeOk replaceOk : Bool) : Fs :=
  let temp_path := withSuffixTmp json_path
  if writeOk then
    let fs1 := fsSet fs temp_path content
    if replaceOk then fsRemove (fsSet fs1 json_path content) temp_path
    else fsRemove fs1 temp_path
  else fsRemove fs temp_path

/-! ## Per-document processing (`process_json_file`)

A read or parse failure returns with nothing touched.  Otherwise the
document's programs are deduplicated, tasks run, the entries rewritten,
and the document persisted atomically. -/

structure DocRun where
  out : List ProgramEntry
  results : List WorkerResult
  images : List String
  reqCount : Nat
deriving Repr

def processPrograms (net : Net) (out_root base_url day channel_folder : String)
    (progs : List ProgramEntry) (images : List String) (c : Nat) : DocRun :=
  let G := dedupIndexes progs
  let urls := dedupUrls progs
  let tasks := mkTasks urls out_root channel_folder day
  let (results, images', c') := runTasks net tasks images c
  ⟨rewriteAll (resolveUrl results base_url (lastComponent out_root) channel_folder day) G progs,
    results, images', c'⟩

structure ProcOut where
  fs : Fs
  images : List String
  reqCount : Nat

def process_json_file (net : Net) (writeOk replaceOk : Bool)
    (out_root base_url day : String) (fs : Fs) (images : List String) (c : Nat)
    (json_path : String) : ProcOut :=
  match fsGet fs json_path with
  | none => ⟨fs, images, c⟩
  | some (.invalidJson _) => ⟨fs, images, c⟩
  | some (.doc d) =>
    let r := processPrograms net out_root base_url day (pathStem json_path) d.programs images c
    ⟨persistStep fs json_path (.doc { d with programs := r.out }) writeOk replaceOk,
      r.images, r.reqCount⟩

/-! ## Main driver

For each of the two day buckets under the schedules root, a missing
folder is skipped (`continue`); an existing one contributes its sorted
`*.json` listing, each processed in turn.  `listing` is the directory
oracle (`None` when the folder does not exist, otherwise the sorted
glob); `pflags` injects per-path persist faults.  The Python `main` has
no abort path — every per-document exception is caught inside
`process_json_file` — so the only constructor ever produced is `ok`;
`processed` records each document the run handed to
`process_json_file`, in order. -/

structure MainOut where
  fs : Fs
  images : List String
  reqCount : Nat
  processed : List String

def runFolder (net : Net) (pflags : String → Bool × Bool) (out_root base_url day : String)
    (folder : String) : List String → MainOut → MainOut
  | [], st => st
  | f :: files, st =>
    let jp := folder ++ "/" ++ f
    let r := process_json_file net (pflags jp).1 (pflags jp).2 out_root base_url day
      st.fs st.images st.reqCount jp
    runFolder net pflags out_root base_url day folder files
      ⟨r.fs, r.images, r.reqCount, st.processed ++ [jp]⟩

def runDay (net : Net) (pflags : String → Bool × Bool)
    (listing : String → Option (List String)) (schedules_dir out_root base_url day : String)
    (st : MainOut) : MainOut :=
  let folder := schedules_dir ++ "/" ++ day
  match listing folder with
  | none => st
  | some files => runFolder net pflags out_root base_url day folder files st

def mainRun (net : Net) (pflags : String → Bool × Bool)
    (listing : String → Option (List String)) (schedules_dir out_root base_url : String)
    (fs : Fs) (images : List String) : Except String MainOut :=
  let st0 : MainOut := ⟨fs, images, 0, []⟩
  let st1 := runDay net pflags listing schedules_dir out_root base_url "today" st0
  let st2 := runDay net pflags listing schedules_dir out_root base_url "tomorrow" st1
  Except.ok st2

/-! ## Specification-side derived notions

These are not part of the program; they name observations about it so
the theorems below can be stated.  `idxsFrom rs i s` is the list of
absolute row indices (counting from `i`) whose stripped show name is
`s`; `firstUrlFrom rs s` is the first stripped `http`-prefixed logo URL
among rows named `s`; `lastUrlFor` reads off which resolved URL the
rewriter leaves at row `j`; `dayFiles`/`allFiles` enumerate the
documents a run discovers; `processedOf` extracts the processed-list
observation from a finished run. -/

def idxsFrom : List ProgramEntry → Nat → String → List Nat
  | [], _, _ => []
  | r :: rs, i, s =>
    if pyStrip r.show_name = s then i :: idxsFrom rs (i + 1) s else idxsFrom rs (i + 1) s

def firstUrlFrom : List ProgramEntry → String → Option String
  | [], _ => none
  | r :: rs, s =>
    if pyStrip r.show_name = s ∧ pyStartsWith (pyStrip r.show_logo) "http" = true then
      some (pyStrip r.show_logo)
    else firstUrlFrom rs s

def lastUrlFor (resolve : String → String) (G : List (String × List Nat)) (j : Nat) :
    Option String :=
  G.foldl (fun acc g => if j ∈ g.2 then some (resolve g.1) else acc) none

/-- Apply an optional resolved URL to an entry's `show_logo`. -/
def applyOpt (o : Option String) (p : ProgramEntry) : ProgramEntry :=
  match o with
  | some u => { p with show_logo := u }
  | none => p

/-- Entry at position `j` (default entry out of range), fixed here so
statements and proofs share one indexing normal form. -/
def getE (l : List ProgramEntry) (j : Nat) : ProgramEntry :=
  l.getD j default

def dayFiles (listing : String → Option (List String)) (schedules_dir day : String) :
    List String :=
  match listing (schedules_dir ++ "/" ++ day) with
  | none => []
  | some files => files.map (fun f => schedules_dir ++ "/" ++ day ++ "/" ++ f)

def allFiles (listing : String → Option (List String)) (schedules_dir : String) :
    List String :=
  dayFiles listing schedules_dir "today" ++ dayFiles listing schedules_dir "tomorrow"

def processedOf (r : Except String MainOut) : List String :=
  match r with
  | .ok m => m.processed
  | .error _ => []

/-! ## Concrete inputs used by counterexamples and witnesses -/

def mkE (n u : String) : ProgramEntry := ⟨n, u, "", "", "", "", ""⟩

/-- A network on which every request fails (connection error every attempt). -/
def netFail : Net := ⟨fun _ _ => none, fun _ => false⟩

/-- A network on which every request succeeds and the body decodes as an image. -/
def netOk : Net := ⟨fun _ _ => some "IMG", fun _ => true⟩

/-- A network on which every request succeeds but the body is not an image. -/
def netBadBytes : Net := ⟨fun _ _ => some "NOTANIMAGE", fun _ => false⟩

def cPath : String := "schedule/today/rai-1.json"

def cBase : String := "https://tv-programma.it/wp-content/uploads"

def cOutRoot : String := "downloaded-images"

/-- Document with two blank-named entries carrying distinct logos. -/
def cDocBlank : Document := ⟨"rest", [mkE "" "a", mkE "" "b"]⟩

/-- Document with one named entry and no usable source URL. -/
def cDocNoUrl : Document := ⟨"rest", [mkE "A" ""]⟩

/-- Document whose two entries differ only by surrounding whitespace in the name. -/
def cDocWs : List ProgramEntry := [mkE "News" "http://x/n.jpg", mkE " News" "http://x/m.jpg"]

/-- Document with two names that differ only by case: equal slugs. -/
def cDocCase : List ProgramEntry := [mkE "News" "http://x/n.jpg", mkE "news" "http://x/m.jpg"]

/-- Document with two names whose slugs differ. -/
def cDocTwo : List ProgramEntry := [mkE "Alpha" "http://x/a.jpg", mkE "Beta" "http://x/b.jpg"]

/-- Document with one entry with a usable source URL. -/
def cDocOneUrl : Document := ⟨"rest", [mkE "A" "http://x/a.jpg"]⟩

/-- The spec's own example: two entries of the same show, one with a URL. -/
def cDocNews : Document := ⟨"rest", [mkE "News" "http://x/n.jpg", mkE "News" ""]⟩

/-- The public URL the pipeline computes for show `News` of `rai-1`, day `today`. -/
def cNewsUrl : String :=
  "https://tv-programma.it/wp-content/uploads/downloaded-images/rai-1/today/news.webp"


/-! ## Lemmas: association lists keyed by strings -/

theorem alookup_eq_some_of_mem {α : Type} {m : List (String × α)} {s : String} {v : α}
    (h : (s, v) ∈ m) : ∃ w, alookup m s = some w := by
  induction m with
  | nil => cases h
  | cons e rest ih =>
    by_cases he : e.1 = s
    · exact ⟨e.2, by simp [alookup, he]⟩
    · rcases List.mem_cons.mp h with h1 | h1
      · exact absurd (congrArg Prod.fst h1.symm) he
      · rcases ih h1 with ⟨w, hw⟩
        exact ⟨w, by simpa [alookup, he] using hw⟩

theorem mem_of_alookup_eq_some {α : Type} {m : List (String × α)} {s : String} {v : α}
    (h : alookup m s = some v) : (s, v) ∈ m := by
  induction m with
  | nil => simp [alookup] at h
  | cons e rest ih =>
    by_cases he : e.1 = s
    · simp [alookup, he] at h
      exact List.mem_cons.mpr (Or.inl (by rcases e with ⟨k, w⟩; simp_all))
    · simp [alookup, he] at h
      exact List.mem_cons_of_mem _ (ih h)

theorem alookup_eq_none_iff {α : Type} {m : List (String × α)} {s : String} :
    alookup m s = none ↔ s ∉ m.map Prod.fst := by
  induction m with
  | nil => simp [alookup]
  | cons e rest ih =>
    by_cases he : e.1 = s
    · simp [alookup, he]
    · simp [alookup, he, ih, Ne.symm he]

theorem alookup_append_some {α : Type} {m m2 : List (String × α)} {s : String} {v : α}
    (h : alookup m s = some v) : alookup (m ++ m2) s = some v := by
  induction m with
  | nil => simp [alookup] at h
  | cons e rest ih =>
    by_cases he : e.1 = s
    · simpa [alookup, he] using h
    · simp [alookup, he] at h ⊢
      exact ih h

theorem alookup_append_none {α : Type} {m m2 : List (String × α)} {s : String}
    (h : alookup m s = none) : alookup (m ++ m2) s = alookup m2 s := by
  induction m with
  | nil => simp
  | cons e rest ih =>
    by_cases he : e.1 = s
    · simp [alookup, he] at h
    · simp [alookup, he] at h ⊢
      exact ih h

theorem alookup_eq_of_mem_nodup {α : Type} {m : List (String × α)} {s : String} {v : α}
    (hn : (m.map Prod.fst).Nodup) (h : (s, v) ∈ m) : alookup m s = some v := by
  induction m with
  | nil => cases h
  | cons e rest ih =>
    rcases List.mem_cons.mp h with h1 | h1
    · rcases e with ⟨k, w⟩
      rcases Prod.mk.injEq .. ▸ h1 with ⟨hk, hv⟩
      simp [alookup, hk.symm, hv]
    · have he : e.1 ≠ s := by
        rintro rfl
        exact (List.nodup_cons.mp hn).1 (List.mem_map.mpr ⟨(e.1, v), h1, rfl⟩)
      simp only [alookup, if_neg he]
      exact ih (List.nodup_cons.mp hn).2 h1

/-! ## Lemmas: `addIndex` -/

theorem alookup_addIndex_self (m : List (String × List Nat)) (k : String) (i : Nat) :
    alookup (addIndex m k i) k = some ((alookup m k).getD [] ++ [i]) := by
  induction m with
  | nil => simp [addIndex, alookup]
  | cons e rest ih =>
    rcases e with ⟨k', l⟩
    by_cases he : k' = k
    · simp [addIndex, he, alookup]
    · simp [addIndex, he, alookup, ih]

theorem alookup_addIndex_ne (m : List (String × List Nat)) {s k : String} (i : Nat)
    (h : s ≠ k) : alookup (addIndex m k i) s = alookup m s := by
  have hks : k ≠ s := Ne.symm h
  induction m with
  | nil => simp [addIndex, alookup, hks]
  | cons e rest ih =>
    rcases e with ⟨k', l⟩
    by_cases hek : k' = k
    · subst hek
      simp [addIndex, alookup, hks]
    · by_cases hes : k' = s
      · simp [addIndex, hek, alookup, hes, h]
      · simp [addIndex, hek, alookup, hes, ih]

theorem keys_addIndex (m : List (String × List Nat)) (k : String) (i : Nat) :
    (addIndex m k i).map Prod.fst =
      if k ∈ m.map Prod.fst then m.map Prod.fst else m.map Prod.fst ++ [k] := by
  induction m with
  | nil => simp [addIndex]
  | cons e rest ih =>
    rcases e with ⟨k', l⟩
    by_cases he : k' = k
    · simp [addIndex, he]
    · have hke : k ≠ k' := fun hh => he hh.symm
      simp only [addIndex, if_neg he, List.map_cons, ih]
      by_cases hm : k ∈ rest.map Prod.fst <;> simp [hm, hke]

theorem nodup_keys_addIndex {m : List (String × List Nat)} (k : String) (i : Nat)
    (hn : (m.map Prod.fst).Nodup) : ((addIndex m k i).map Prod.fst).Nodup := by
  rw [keys_addIndex]
  by_cases hm : k ∈ m.map Prod.fst
  · simpa [hm]
  · simpa [hm, List.nodup_append] using hn


/-! ## Equation lemmas for the recursive definitions -/

theorem getE_cons_zero (p : ProgramEntry) (ps : List ProgramEntry) : getE (p :: ps) 0 = p := rfl

theorem getE_cons_succ (p : ProgramEntry) (ps : List ProgramEntry) (j : Nat) :
    getE (p :: ps) (j + 1) = getE ps j := rfl

theorem dedupIdxAux_cons_blank {r : ProgramEntry} (rs : List ProgramEntry) (i : Nat)
    (m : List (String × List Nat)) (h : pyStrip r.show_name = "") :
    dedupIdxAux (r :: rs) i m = dedupIdxAux rs (i + 1) m := by
  simp [dedupIdxAux, h]

theorem dedupIdxAux_cons_named {r : ProgramEntry} (rs : List ProgramEntry) (i : Nat)
    (m : List (String × List Nat)) (h : pyStrip r.show_name ≠ "") :
    dedupIdxAux (r :: rs) i m = dedupIdxAux rs (i + 1) (addIndex m (pyStrip r.show_name) i) := by
  simp [dedupIdxAux, h]

theorem idxsFrom_cons_pos {r : ProgramEntry} {s : String} (rs : List ProgramEntry) (i : Nat)
    (h : pyStrip r.show_name = s) :
    idxsFrom (r :: rs) i s = i :: idxsFrom rs (i + 1) s := by
  simp [idxsFrom, h]

theorem idxsFrom_cons_neg {r : ProgramEntry} {s : String} (rs : List ProgramEntry) (i : Nat)
    (h : pyStrip r.show_name ≠ s) :
    idxsFrom (r :: rs) i s = idxsFrom rs (i + 1) s := by
  simp [idxsFrom, h]

theorem dedupUrlAux_cons_blank {r : ProgramEntry} (rs : List ProgramEntry)
    (m : List (String × String)) (h : pyStrip r.show_name = "") :
    dedupUrlAux (r :: rs) m = dedupUrlAux rs m := by
  simp [dedupUrlAux, h]

theorem dedupUrlAux_cons_add {r : ProgramEntry} (rs : List ProgramEntry)
    (m : List (String × String)) (h : pyStrip r.show_name ≠ "")
    (h1 : alookup m (pyStrip r.show_name) = none)
    (h2 : pyStartsWith (pyStrip r.show_logo) "http" = true) :
    dedupUrlAux (r :: rs) m =
      dedupUrlAux rs (m ++ [(pyStrip r.show_name, pyStrip r.show_logo)]) := by
  simp [dedupUrlAux, h, h1, h2]

theorem dedupUrlAux_cons_skip {r : ProgramEntry} (rs : List ProgramEntry)
    (m : List (String × String)) (h : pyStrip r.show_name ≠ "")
    (hc : ((alookup m (pyStrip r.show_name)).isNone &&
      pyStartsWith (pyStrip r.show_logo) "http") = false) :
    dedupUrlAux (r :: rs) m = dedupUrlAux rs m := by
  simp only [dedupUrlAux, if_neg h, hc, Bool.false_eq_true, if_false]

theorem firstUrlFrom_cons_pos {r : ProgramEntry} {s : String} (rs : List ProgramEntry)
    (h1 : pyStrip r.show_name = s) (h2 : pyStartsWith (pyStrip r.show_logo) "http" = true) :
    firstUrlFrom (r :: rs) s = some (pyStrip r.show_logo) := by
  simp [firstUrlFrom, h1, h2]

theorem firstUrlFrom_cons_neg {r : ProgramEntry} {s : String} (rs : List ProgramEntry)
    (h : ¬(pyStrip r.show_name = s ∧ pyStartsWith (pyStrip r.show_logo) "http" = true)) :
    firstUrlFrom (r :: rs) s = firstUrlFrom rs s := by
  simp only [firstUrlFrom, if_neg h]

/-! ## Lemmas: deduplicator characterization -/

theorem nodup_keys_dedupIdxAux (rs : List ProgramEntry) (i : Nat)
    (m : List (String × List Nat)) (hn : (m.map Prod.fst).Nodup) :
    ((dedupIdxAux rs i m).map Prod.fst).Nodup := by
  induction rs generalizing i m with
  | nil => simpa [dedupIdxAux]
  | cons r rs ih =>
    by_cases hb : pyStrip r.show_name = ""
    · rw [dedupIdxAux_cons_blank rs i m hb]
      exact ih _ _ hn
    · rw [dedupIdxAux_cons_named rs i m hb]
      exact ih _ _ (nodup_keys_addIndex _ _ hn)

theorem alookup_dedupIdxAux_some (rs : List ProgramEntry) (i : Nat)
    (m : List (String × List Nat)) {s : String} {l0 : List Nat}
    (hs : s ≠ "") (h : alookup m s = some l0) :
    alookup (dedupIdxAux rs i m) s = some (l0 ++ idxsFrom rs i s) := by
  induction rs generalizing i m l0 with
  | nil => simpa [dedupIdxAux, idxsFrom]
  | cons r rs ih =>
    by_cases hb : pyStrip r.show_name = ""
    · have hne : pyStrip r.show_name ≠ s := by rw [hb]; exact Ne.symm hs
      rw [dedupIdxAux_cons_blank rs i m hb, idxsFrom_cons_neg rs i hne]
      exact ih _ _ h
    · by_cases hrs : pyStrip r.show_name = s
      · have h1 : alookup (addIndex m (pyStrip r.show_name) i) s = some (l0 ++ [i]) := by
          rw [hrs, alookup_addIndex_self, h]
          rfl
        rw [dedupIdxAux_cons_named rs i m hb, idxsFrom_cons_pos rs i hrs, ih _ _ h1,
          List.append_assoc]
        rfl
      · have h1 : alookup (addIndex m (pyStrip r.show_name) i) s = some l0 := by
          rw [alookup_addIndex_ne _ _ (Ne.symm hrs)]; exact h
        rw [dedupIdxAux_cons_named rs i m hb, idxsFrom_cons_neg rs i hrs]
        exact ih _ _ h1

theorem alookup_dedupIdxAux_none (rs : List ProgramEntry) (i : Nat)
    (m : List (String × List Nat)) {s : String}
    (hs : s ≠ "") (h : alookup m s = none) :
    alookup (dedupIdxAux rs i m) s =
      if idxsFrom rs i s = [] then none else some (idxsFrom rs i s) := by
  induction rs generalizing i m with
  | nil => simpa [dedupIdxAux, idxsFrom]
  | cons r rs ih =>
    by_cases hb : pyStrip r.show_name = ""
    · have hne : pyStrip r.show_name ≠ s := by rw [hb]; exact Ne.symm hs
      rw [dedupIdxAux_cons_blank rs i m hb, idxsFrom_cons_neg rs i hne]
      exact ih _ _ h
    · by_cases hrs : pyStrip r.show_name = s
      · have h1 : alookup (addIndex m (pyStrip r.show_name) i) s = some [i] := by
          rw [hrs, alookup_addIndex_self, h]
          rfl
        have h2 := alookup_dedupIdxAux_some rs (i + 1) _ hs h1
        rw [dedupIdxAux_cons_named rs i m hb, idxsFrom_cons_pos rs i hrs, h2]
        simp
      · have h1 : alookup (addIndex m (pyStrip r.show_name) i) s = none := by
          rw [alookup_addIndex_ne _ _ (Ne.symm hrs)]; exact h
        rw [dedupIdxAux_cons_named rs i m hb, idxsFrom_cons_neg rs i hrs]
        exact ih _ _ h1

theorem alookup_dedupIdxAux_blank (rs : List ProgramEntry) (i : Nat)
    (m : List (String × List Nat)) (h : alookup m "" = none) :
    alookup (dedupIdxAux rs i m) "" = none := by
  induction rs generalizing i m with
  | nil => simpa [dedupIdxAux]
  | cons r rs ih =>
    by_cases hb : pyStrip r.show_name = ""
    · rw [dedupIdxAux_cons_blank rs i m hb]
      exact ih _ _ h
    · have h1 : alookup (addIndex m (pyStrip r.show_name) i) "" = none := by
        rw [alookup_addIndex_ne _ _ (Ne.symm hb)]; exact h
      rw [dedupIdxAux_cons_named rs i m hb]
      exact ih _ _ h1

theorem mem_idxsFrom {rs : List ProgramEntry} {s : String} {i j : Nat} :
    j ∈ idxsFrom rs i s ↔
      ∃ k, k < rs.length ∧ j = i + k ∧ pyStrip ((getE rs k).show_name) = s := by
  induction rs generalizing i with
  | nil => simp [idxsFrom]
  | cons r rs ih =>
    by_cases hr : pyStrip r.show_name = s
    · rw [idxsFrom_cons_pos rs i hr]
      simp only [List.mem_cons, ih]
      constructor
      · rintro (rfl | ⟨k, hk, rfl, hks⟩)
        · exact ⟨0, by simp, by omega, by rw [getE_cons_zero]; exact hr⟩
        · exact ⟨k + 1, by simp [hk], by omega, by rw [getE_cons_succ]; exact hks⟩
      · rintro ⟨k, hk, rfl, hks⟩
        cases k with
        | zero => exact Or.inl (by omega)
        | succ k =>
          refine Or.inr ⟨k, by simpa using hk, by omega, ?_⟩
          rw [getE_cons_succ] at hks
          exact hks
    · rw [idxsFrom_cons_neg rs i hr]
      rw [ih]
      constructor
      · rintro ⟨k, hk, rfl, hks⟩
        exact ⟨k + 1, by simpa using hk, by omega, by rw [getE_cons_succ]; exact hks⟩
      · rintro ⟨k, hk, rfl, hks⟩
        cases k with
        | zero =>
          rw [getE_cons_zero] at hks
          exact absurd hks hr
        | succ k =>
          refine ⟨k, by simpa using hk, by omega, ?_⟩
          rw [getE_cons_succ] at hks
          exact hks

theorem group_key_spec {progs : List ProgramEntry} {s : String} {l : List Nat}
    (h : (s, l) ∈ dedupIndexes progs) :
    s ≠ "" ∧ l = idxsFrom progs 0 s ∧ idxsFrom progs 0 s ≠ [] := by
  have hs : s ≠ "" := by
    rintro rfl
    rcases alookup_eq_some_of_mem h with ⟨w, hw⟩
    simp only [dedupIndexes] at hw
    rw [alookup_dedupIdxAux_blank progs 0 [] rfl] at hw
    cases hw
  have hlk : alookup (dedupIndexes progs) s = some l :=
    alookup_eq_of_mem_nodup (nodup_keys_dedupIdxAux progs 0 [] (by simp)) h
  simp only [dedupIndexes] at hlk
  rw [alookup_dedupIdxAux_none progs 0 [] hs rfl] at hlk
  by_cases hnil : idxsFrom progs 0 s = []
  · rw [if_pos hnil] at hlk; cases hlk
  · rw [if_neg hnil] at hlk
    exact ⟨hs, (Option.some.injEq .. ▸ hlk).symm, hnil⟩

theorem group_mem_iff {progs : List ProgramEntry} {s : String} {l : List Nat}
    (h : (s, l) ∈ dedupIndexes progs) (j : Nat) :
    j ∈ l ↔ j < progs.length ∧ pyStrip ((getE progs j).show_name) = s := by
  rcases group_key_spec h with ⟨-, rfl, -⟩
  rw [mem_idxsFrom]
  constructor
  · rintro ⟨k, hk, rfl, hks⟩
    exact ⟨by omega, by simpa using hks⟩
  · rintro ⟨hj, hjs⟩
    exact ⟨j, hj, by omega, hjs⟩

theorem group_exists {progs : List ProgramEntry} {j : Nat}
    (hj : j < progs.length) (hs : pyStrip ((getE progs j).show_name) ≠ "") :
    ∃ l, (pyStrip ((getE progs j).show_name), l) ∈ dedupIndexes progs ∧ j ∈ l := by
  have hmem : j ∈ idxsFrom progs 0 (pyStrip ((getE progs j).show_name)) :=
    mem_idxsFrom.mpr ⟨j, hj, by omega, rfl⟩
  have hnil := List.ne_nil_of_mem hmem
  have hlk : alookup (dedupIndexes progs) (pyStrip ((getE progs j).show_name)) =
      some (idxsFrom progs 0 (pyStrip ((getE progs j).show_name))) := by
    simp only [dedupIndexes]
    rw [alookup_dedupIdxAux_none progs 0 [] hs rfl, if_neg hnil]
  exact ⟨_, mem_of_alookup_eq_some hlk, hmem⟩

/-! ## Lemmas: canonical-URL map characterization -/

theorem alookup_dedupUrlAux_some (rs : List ProgramEntry)
    (m : List (String × String)) {s u : String}
    (h : alookup m s = some u) : alookup (dedupUrlAux rs m) s = some u := by
  induction rs generalizing m with
  | nil => simpa [dedupUrlAux]
  | cons r rs ih =>
    by_cases hb : pyStrip r.show_name = ""
    · rw [dedupUrlAux_cons_blank rs m hb]
      exact ih _ h
    · by_cases hc : ((alookup m (pyStrip r.show_name)).isNone &&
        pyStartsWith (pyStrip r.show_logo) "http") = true
      · rcases Bool.and_eq_true .. ▸ hc with ⟨hc1, hc2⟩
        rw [dedupUrlAux_cons_add rs m hb (Option.isNone_iff_eq_none.mp hc1) hc2]
        exact ih _ (alookup_append_some h)
      · rw [dedupUrlAux_cons_skip rs m hb (Bool.not_eq_true _ ▸ hc)]
        exact ih _ h

theorem alookup_dedupUrlAux_none (rs : List ProgramEntry)
    (m : List (String × String)) {s : String}
    (hs : s ≠ "") (h : alookup m s = none) :
    alookup (dedupUrlAux rs m) s = firstUrlFrom rs s := by
  induction rs generalizing m with
  | nil => simpa [dedupUrlAux, firstUrlFrom]
  | cons r rs ih =>
    by_cases hb : pyStrip r.show_name = ""
    · have hne : ¬(pyStrip r.show_name = s ∧ pyStartsWith (pyStrip r.show_logo) "http" = true) := by
        rintro ⟨h1, -⟩
        exact hs (h1 ▸ hb)
      rw [dedupUrlAux_cons_blank rs m hb, firstUrlFrom_cons_neg rs hne]
      exact ih _ h
    · by_cases hrs : pyStrip r.show_name = s
      · by_cases hh : pyStartsWith (pyStrip r.show_logo) "http" = true
        · have h1 : alookup m (pyStrip r.show_name) = none := hrs ▸ h
          rw [dedupUrlAux_cons_add rs m hb h1 hh, firstUrlFrom_cons_pos rs hrs hh]
          refine alookup_dedupUrlAux_some rs _ ?_
          rw [alookup_append_none (hrs ▸ h)]
          simp [alookup, hrs]
        · have hc : ((alookup m (pyStrip r.show_name)).isNone &&
              pyStartsWith (pyStrip r.show_logo) "http") = false := by
            simp [Bool.and_eq_false_iff, hh]
          have hne : ¬(pyStrip r.show_name = s ∧
              pyStartsWith (pyStrip r.show_logo) "http" = true) := by
            rintro ⟨-, h2⟩
            exact hh h2
          rw [dedupUrlAux_cons_skip rs m hb hc, firstUrlFrom_cons_neg rs hne]
          exact ih _ h
      · have hne : ¬(pyStrip r.show_name = s ∧
            pyStartsWith (pyStrip r.show_logo) "http" = true) := by
          rintro ⟨h1, -⟩
          exact hrs h1
        rw [firstUrlFrom_cons_neg rs hne]
        by_cases hc : ((alookup m (pyStrip r.show_name)).isNone &&
            pyStartsWith (pyStrip r.show_logo) "http") = true
        · rcases Bool.and_eq_true .. ▸ hc with ⟨hc1, hc2⟩
          rw [dedupUrlAux_cons_add rs m hb (Option.isNone_iff_eq_none.mp hc1) hc2]
          refine ih _ ?_
          rw [alookup_append_none h]
          simp [alookup, hrs]
        · rw [dedupUrlAux_cons_skip rs m hb (Bool.not_eq_true _ ▸ hc)]
          exact ih _ h

theorem alookup_dedupUrls (progs : List ProgramEntry) {s : String} (hs : s ≠ "") :
    alookup (dedupUrls progs) s = firstUrlFrom progs s := by
  simp only [dedupUrls]
  exact alookup_dedupUrlAux_none progs [] hs rfl

theorem alookup_dedupUrlAux_blank (rs : List ProgramEntry)
    (m : List (String × String)) (h : alookup m "" = none) :
    alookup (dedupUrlAux rs m) "" = none := by
  induction rs generalizing m with
  | nil => simpa [dedupUrlAux]
  | cons r rs ih =>
    by_cases hb : pyStrip r.show_name = ""
    · rw [dedupUrlAux_cons_blank rs m hb]
      exact ih _ h
    · by_cases hc : ((alookup m (pyStrip r.show_name)).isNone &&
        pyStartsWith (pyStrip r.show_logo) "http") = true
      · rcases Bool.and_eq_true .. ▸ hc with ⟨hc1, hc2⟩
        rw [dedupUrlAux_cons_add rs m hb (Option.isNone_iff_eq_none.mp hc1) hc2]
        refine ih _ ?_
        rw [alookup_append_none h]
        simp [alookup, hb]
      · rw [dedupUrlAux_cons_skip rs m hb (Bool.not_eq_true _ ▸ hc)]
        exact ih _ h

theorem firstUrlFrom_some_mem {rs : List ProgramEntry} {s u : String}
    (h : firstUrlFrom rs s = some u) :
    ∃ r ∈ rs, pyStrip r.show_name = s ∧ pyStrip r.show_logo = u ∧
      pyStartsWith u "http" = true := by
  induction rs with
  | nil => cases h
  | cons r rs ih =>
    by_cases hc : pyStrip r.show_name = s ∧ pyStartsWith (pyStrip r.show_logo) "http" = true
    · rw [firstUrlFrom_cons_pos rs hc.1 hc.2] at h
      rcases Option.some.injEq .. ▸ h with rfl
      exact ⟨r, List.mem_cons_self r rs, hc.1, rfl, hc.2⟩
    · rw [firstUrlFrom_cons_neg rs hc] at h
      rcases ih h with ⟨r', hr', h1, h2, h3⟩
      exact ⟨r', List.mem_cons_of_mem r hr', h1, h2, h3⟩

theorem firstUrlFrom_all_pos {rs : List ProgramEntry} {s v : String}
    (hex : ∃ r ∈ rs, pyStrip r.show_name = s)
    (hall : ∀ r ∈ rs, pyStrip r.show_name = s →
      pyStrip r.show_logo = v ∧ pyStartsWith v "http" = true) :
    firstUrlFrom rs s = some v := by
  induction rs with
  | nil => rcases hex with ⟨r, hr, -⟩; cases hr
  | cons r rs ih =>
    by_cases hr : pyStrip r.show_name = s
    · rcases hall r (List.mem_cons_self r rs) hr with ⟨h1, h2⟩
      rw [firstUrlFrom_cons_pos rs hr (h1 ▸ h2), h1]
    · have hne : ¬(pyStrip r.show_name = s ∧
          pyStartsWith (pyStrip r.show_logo) "http" = true) := fun hc => hr hc.1
      rw [firstUrlFrom_cons_neg rs hne]
      refine ih ?_ (fun r' hr' => hall r' (List.mem_cons_of_mem r hr'))
      rcases hex with ⟨r', hr', hs'⟩
      rcases List.mem_cons.mp hr' with rfl | hmem
      · exact absurd hs' hr
      · exact ⟨r', hmem, hs'⟩

theorem url_key_has_group {progs : List ProgramEntry} {s : String}
    (h : s ∈ (dedupUrls progs).map Prod.fst) :
    ∃ l, (s, l) ∈ dedupIndexes progs ∧ l ≠ [] := by
  rcases List.mem_map.mp h with ⟨⟨s', u⟩, hmem, hfst⟩
  cases hfst
  have hs : s' ≠ "" := by
    rintro rfl
    rcases alookup_eq_some_of_mem hmem with ⟨w, hw⟩
    simp only [dedupUrls] at hw
    rw [alookup_dedupUrlAux_blank progs [] rfl] at hw
    cases hw
  rcases alookup_eq_some_of_mem hmem with ⟨w, hw⟩
  rw [alookup_dedupUrls progs hs] at hw
  rcases firstUrlFrom_some_mem hw with ⟨r, hr, hrs, -, -⟩
  rcases List.mem_iff_getElem.mp hr with ⟨j, hj, hgr⟩
  have hgE : getE progs j = r := by
    simp only [getE, List.getD_eq_getElem?_getD, List.getElem?_eq_getElem hj, hgr,
      Option.getD_some]
  rcases group_exists (j := j) hj (by rw [hgE, hrs]; exact hs) with ⟨l, hl, hjl⟩
  rw [hgE, hrs] at hl
  exact ⟨l, hl, List.ne_nil_of_mem hjl⟩

/-! ## Lemmas: rewriter -/

theorem setLogo_setLogo (p : ProgramEntry) (a b : String) :
    ({ { p with show_logo := a } with show_logo := b } : ProgramEntry) =
      { p with show_logo := b } := rfl

theorem length_setLogoAt (u : String) (ps : List ProgramEntry) (n : Nat) :
    (setLogoAt u ps n).length = ps.length := by
  induction ps generalizing n with
  | nil => rfl
  | cons p ps ih =>
    cases n with
    | zero => rfl
    | succ n => simpa [setLogoAt] using ih n

theorem getE_setLogoAt (u : String) (ps : List ProgramEntry) (n j : Nat) :
    getE (setLogoAt u ps n) j =
      if j = n ∧ j < ps.length then { getE ps j with show_logo := u } else getE ps j := by
  induction ps generalizing n j with
  | nil => simp [setLogoAt, getE]
  | cons p ps ih =>
    cases n with
    | zero =>
      cases j with
      | zero => simp [setLogoAt, getE_cons_zero]
      | succ j => simp [setLogoAt, getE_cons_succ]
    | succ n =>
      cases j with
      | zero => simp [setLogoAt, getE_cons_zero]
      | succ j =>
        show getE (setLogoAt u ps n) j = _
        rw [ih n j, getE_cons_succ]
        by_cases h1 : j = n <;> by_cases h2 : j < ps.length <;> simp [h1, h2, Nat.succ_lt_succ_iff]

theorem length_applyGroup (ps : List ProgramEntry) (idxs : List Nat) (u : String) :
    (applyGroup ps idxs u).length = ps.length := by
  induction idxs generalizing ps with
  | nil => rfl
  | cons i idxs ih =>
    show (applyGroup (setLogoAt u ps i) idxs u).length = ps.length
    rw [ih, length_setLogoAt]

theorem getE_applyGroup (ps : List ProgramEntry) (idxs : List Nat) (u : String) (j : Nat) :
    getE (applyGroup ps idxs u) j =
      if j ∈ idxs ∧ j < ps.length then { getE ps j with show_logo := u } else getE ps j := by
  induction idxs generalizing ps with
  | nil => simp [applyGroup]
  | cons i idxs ih =>
    show getE (applyGroup (setLogoAt u ps i) idxs u) j = _
    rw [ih, length_setLogoAt, getE_setLogoAt]
    by_cases h1 : j ∈ idxs <;> by_cases h2 : j < ps.length <;> by_cases h3 : j = i <;>
      simp [h1, h2, h3, setLogo_setLogo, List.mem_cons] <;>
      (intro hx hy; simp [hy])

theorem lastUrlFor_cons (resolve : String → String) (g : String × List Nat)
    (G : List (String × List Nat)) (j : Nat) :
    lastUrlFor resolve (g :: G) j =
      (lastUrlFor resolve G j).or (if j ∈ g.2 then some (resolve g.1) else none) := by
  suffices hgen : ∀ (G : List (String × List Nat)) (a : Option String),
      G.foldl (fun acc g => if j ∈ g.2 then some (resolve g.1) else acc) a =
        (lastUrlFor resolve G j).or a by
    rw [show lastUrlFor resolve (g :: G) j =
      G.foldl (fun acc g => if j ∈ g.2 then some (resolve g.1) else acc)
        (if j ∈ g.2 then some (resolve g.1) else none) from rfl, hgen]
  intro G a
  induction G generalizing a with
  | nil => simp [lastUrlFor, Option.or]
  | cons g' G ih =>
    show List.foldl _ (if j ∈ g'.2 then some (resolve g'.1) else a) G = _
    rw [ih]
    have hcons : lastUrlFor resolve (g' :: G) j =
        List.foldl (fun acc g => if j ∈ g.2 then some (resolve g.1) else acc)
          (if j ∈ g'.2 then some (resolve g'.1) else none) G := rfl
    rw [hcons, ih]
    cases hL : lastUrlFor resolve G j with
    | some u => simp [Option.or]
    | none =>
      by_cases hj : j ∈ g'.2 <;> simp [hj, Option.or]

theorem lastUrlFor_none (resolve : String → String) {G : List (String × List Nat)} {j : Nat}
    (h : ∀ g ∈ G, j ∉ g.2) : lastUrlFor resolve G j = none := by
  induction G with
  | nil => rfl
  | cons g G ih =>
    rw [lastUrlFor_cons, ih (fun g' hg' => h g' (List.mem_cons_of_mem g hg')),
      if_neg (h g (List.mem_cons_self g G))]
    rfl

theorem lastUrlFor_unique (resolve : String → String) {G : List (String × List Nat)}
    {j : Nat} {s : String} (h1 : ∀ g ∈ G, j ∈ g.2 → g.1 = s)
    (h2 : ∃ g ∈ G, j ∈ g.2) : lastUrlFor resolve G j = some (resolve s) := by
  induction G with
  | nil => rcases h2 with ⟨g, hg, -⟩; cases hg
  | cons g G ih =>
    rw [lastUrlFor_cons]
    by_cases hG : ∃ g' ∈ G, j ∈ g'.2
    · rw [ih (fun g' hg' => h1 g' (List.mem_cons_of_mem g hg')) hG]
      rfl
    · have hg : j ∈ g.2 := by
        rcases h2 with ⟨g', hg', hj⟩
        rcases List.mem_cons.mp hg' with rfl | hmem
        · exact hj
        · exact absurd ⟨g', hmem, hj⟩ hG
      rw [lastUrlFor_none resolve (fun g' hg' hj => hG ⟨g', hg', hj⟩), if_pos hg,
        h1 g (List.mem_cons_self g G) hg]
      rfl

theorem length_rewriteAll (resolve : String → String) (G : List (String × List Nat))
    (ps : List ProgramEntry) : (rewriteAll resolve G ps).length = ps.length := by
  induction G generalizing ps with
  | nil => rfl
  | cons g G ih =>
    show (rewriteAll resolve G (applyGroup ps g.2 (resolve g.1))).length = ps.length
    rw [ih, length_applyGroup]

theorem getE_rewriteAll (resolve : String → String) (G : List (String × List Nat))
    (ps : List ProgramEntry) {j : Nat} (h : j < ps.length) :
    getE (rewriteAll resolve G ps) j = applyOpt (lastUrlFor resolve G j) (getE ps j) := by
  induction G generalizing ps with
  | nil => simp [rewriteAll, lastUrlFor, applyOpt]
  | cons g G ih =>
    show getE (rewriteAll resolve G (applyGroup ps g.2 (resolve g.1))) j = _
    rw [ih (applyGroup ps g.2 (resolve g.1)) (by rw [length_applyGroup]; exact h),
      lastUrlFor_cons, getE_applyGroup]
    cases hL : lastUrlFor resolve G j with
    | some u =>
      by_cases hj : j ∈ g.2 <;> simp [hj, h, Option.or, applyOpt, setLogo_setLogo]
    | none =>
      by_cases hj : j ∈ g.2 <;> simp [hj, h, Option.or, applyOpt]

theorem rewrite_spec (resolve : String → String) (progs : List ProgramEntry) {j : Nat}
    (h : j < progs.length) :
    getE (rewriteAll resolve (dedupIndexes progs) progs) j =
      if pyStrip ((getE progs j).show_name) = "" then getE progs j
      else { getE progs j with show_logo := resolve (pyStrip ((getE progs j).show_name)) } := by
  rw [getE_rewriteAll resolve _ _ h]
  by_cases hb : pyStrip ((getE progs j).show_name) = ""
  · rw [if_pos hb, lastUrlFor_none]
    · rfl
    · rintro ⟨s, l⟩ hg hj
      rcases group_key_spec hg with ⟨hs, -, -⟩
      exact hs (((group_mem_iff hg j).mp hj).2.symm.trans hb)
  · rw [if_neg hb, lastUrlFor_unique resolve
      (s := pyStrip ((getE progs j).show_name))]
    · rfl
    · rintro ⟨s, l⟩ hg hj
      exact (((group_mem_iff hg j).mp hj).2).symm
    · rcases group_exists h hb with ⟨l, hl, hjl⟩
      exact ⟨(pyStrip ((getE progs j).show_name), l), hl, hjl⟩

/-! ## Lemmas: download retry counting and the worker -/

theorem downloadAux_succ (net : Net) (url : String) (c n : Nat) :
    downloadAux net url c (n + 1) =
      match net.fetch url c with
      | some bytes => (some bytes, c + 1)
      | none => downloadAux net url (c + 1) n := rfl

theorem downloadAux_count (net : Net) (url : String) :
    ∀ (n c : Nat), (downloadAux net url c n).2 ≤ c + n ∧
      ((downloadAux net url c n).1 = none → (downloadAux net url c n).2 = c + n) := by
  intro n
  induction n with
  | zero => intro c; exact ⟨Nat.le_refl _, fun _ => rfl⟩
  | succ n ih =>
    intro c
    rw [downloadAux_succ]
    cases hf : net.fetch url c with
    | some bytes =>
      refine ⟨?_, ?_⟩
      · show (some bytes, c + 1).2 ≤ c + (n + 1)
        omega
      · show (some bytes, c + 1).1 = none → (some bytes, c + 1).2 = c + (n + 1)
        intro h
        cases h
    | none =>
      rcases ih (c + 1) with ⟨h1, h2⟩
      refine ⟨?_, ?_⟩
      · show (downloadAux net url (c + 1) n).2 ≤ c + (n + 1)
        omega
      · show (downloadAux net url (c + 1) n).1 = none →
          (downloadAux net url (c + 1) n).2 = c + (n + 1)
        intro h
        rw [h2 h]
        omega

theorem worker_cache_hit (net : Net) (t : FetchTask) (images : List String) (c : Nat)
    (h : t.out_path ∈ images) :
    worker net t images c = (⟨t.show_name, t.out_path, .cached⟩, images, c) := by
  simp [worker, h]

theorem worker_decode_fail (net : Net) (t : FetchTask) (images : List String) (c : Nat)
    {b : String} {c' : Nat} (hmiss : t.out_path ∉ images)
    (hd : download_with_retries net t.url c = (some b, c'))
    (hb : net.decodable b = false) :
    worker net t images c = (⟨t.show_name, t.out_path, .failed⟩, images, c') := by
  simp [worker, hmiss, hd, hb]

theorem worker_fields (net : Net) (t : FetchTask) (images : List String) (c : Nat) :
    ((worker net t images c).1).show_name = t.show_name ∧
      ((worker net t images c).1).out_path = t.out_path := by
  unfold worker
  by_cases h : t.out_path ∈ images
  · simp [h]
  · simp only [h, if_false, if_neg]
    rcases hd : download_with_retries net t.url c with ⟨ob, c'⟩
    cases ob with
    | none => simp
    | some b =>
      by_cases hb : net.decodable b = true <;> simp [hb]

theorem worker_images_mono (net : Net) (t : FetchTask) (images : List String) (c : Nat)
    {p : String} (h : p ∈ images) : p ∈ (worker net t images c).2.1 := by
  unfold worker
  by_cases hm : t.out_path ∈ images
  · simpa [hm]
  · simp only [hm, if_false, if_neg]
    rcases hd : download_with_retries net t.url c with ⟨ob, c'⟩
    cases ob with
    | none => simpa
    | some b =>
      by_cases hb : net.decodable b = true <;> simp [hb, h]

theorem worker_not_failed_mem (net : Net) (t : FetchTask) (images : List String) (c : Nat)
    (h : ((worker net t images c).1).outcome ≠ .failed) :
    t.out_path ∈ (worker net t images c).2.1 := by
  unfold worker at h ⊢
  by_cases hm : t.out_path ∈ images
  · simp [hm]
  · simp only [hm, if_false, if_neg] at h ⊢
    rcases hd : download_with_retries net t.url c with ⟨ob, c'⟩
    rw [hd] at h
    cases ob with
    | none => simp at h
    | some b =>
      by_cases hb : net.decodable b = true
      · simp [hb]
      · simp [hb] at h

/-! ## Lemmas: the task runner -/

theorem runTasks_cons (net : Net) (t : FetchTask) (ts : List FetchTask)
    (images : List String) (c : Nat) :
    runTasks net (t :: ts) images c =
      ((worker net t images c).1 ::
          (runTasks net ts (worker net t images c).2.1 (worker net t images c).2.2).1,
        (runTasks net ts (worker net t images c).2.1 (worker net t images c).2.2).2.1,
        (runTasks net ts (worker net t images c).2.1 (worker net t images c).2.2).2.2) := rfl

theorem runTasks_names (net : Net) (ts : List FetchTask) (images : List String) (c : Nat) :
    ((runTasks net ts images c).1).map (fun r => r.show_name) =
      ts.map (fun t => t.show_name) := by
  induction ts generalizing images c with
  | nil => rfl
  | cons t ts ih =>
    rw [runTasks_cons]
    simp only [List.map_cons, (worker_fields net t images c).1, ih]

theorem runTasks_images_mono (net : Net) (ts : List FetchTask) (images : List String)
    (c : Nat) {p : String} (h : p ∈ images) : p ∈ (runTasks net ts images c).2.1 := by
  induction ts generalizing images c with
  | nil => exact h
  | cons t ts ih =>
    rw [runTasks_cons]
    exact ih _ _ (worker_images_mono net t images c h)

theorem runTasks_paths_mem (net : Net) (ts : List FetchTask) (images : List String)
    (c : Nat) (hall : ∀ r ∈ (runTasks net ts images c).1, r.outcome ≠ .failed) :
    ∀ t ∈ ts, t.out_path ∈ (runTasks net ts images c).2.1 := by
  induction ts generalizing images c with
  | nil => intro t ht; cases ht
  | cons t' ts ih =>
    intro t ht
    rw [runTasks_cons] at hall ⊢
    rcases List.mem_cons.mp ht with rfl | hmem
    · refine runTasks_images_mono net ts _ _ ?_
      exact worker_not_failed_mem net t images c
        (hall _ (List.mem_cons_self _ _))
    · exact ih _ _ (fun r hr => hall r (List.mem_cons_of_mem _ hr)) t hmem

theorem runTasks_all_cached (net : Net) (ts : List FetchTask) (images : List String)
    (c : Nat) (h : ∀ t ∈ ts, t.out_path ∈ images) :
    runTasks net ts images c =
      (ts.map (fun t => ⟨t.show_name, t.out_path, .cached⟩), images, c) := by
  induction ts generalizing images c with
  | nil => rfl
  | cons t ts ih =>
    rw [runTasks_cons, worker_cache_hit net t images c (h t (List.mem_cons_self t ts))]
    simp only [List.map_cons]
    rw [ih _ _ (fun t' ht' => h t' (List.mem_cons_of_mem t ht'))]

/-! ## Lemmas: filesystem and persister -/

theorem fsGet_fsSet_self (fs : Fs) (p : String) (v : FileContent) :
    fsGet (fsSet fs p v) p = some v := by
  induction fs with
  | nil => simp [fsSet, fsGet, alookup]
  | cons e rest ih =>
    rcases e with ⟨q, w⟩
    by_cases hq : q = p
    · simp [fsSet, hq, fsGet, alookup]
    · simpa [fsSet, hq, fsGet, alookup] using ih

theorem fsSet_cons (q : String) (w : FileContent) (rest : Fs) (p : String) (v : FileContent) :
    fsSet ((q, w) :: rest) p v =
      if q = p then (q, v) :: rest else (q, w) :: fsSet rest p v := rfl

theorem fsRemove_cons (q : String) (w : FileContent) (rest : Fs) (p : String) :
    fsRemove ((q, w) :: rest) p =
      if q = p then fsRemove rest p else (q, w) :: fsRemove rest p := by
  by_cases hq : q = p <;> simp [fsRemove, hq]

theorem fsGet_fsSet_ne (fs : Fs) {p q : String} (v : FileContent) (h : q ≠ p) :
    fsGet (fsSet fs p v) q = fsGet fs q := by
  have hpq : ¬p = q := fun hh => h hh.symm
  induction fs with
  | nil => simp [fsSet, fsGet, alookup, hpq]
  | cons e rest ih =>
    rcases e with ⟨q', w⟩
    rw [fsSet_cons]
    by_cases hq : q' = p
    · rw [if_pos hq]
      show (if q' = q then some v else fsGet rest q) = if q' = q then some w else fsGet rest q
      have hne : q' ≠ q := fun hh => h (hh ▸ hq)
      rw [if_neg hne, if_neg hne]
    · rw [if_neg hq]
      show (if q' = q then some w else fsGet (fsSet rest p v) q) =
        if q' = q then some w else fsGet rest q
      rw [ih]

theorem fsGet_fsRemove_ne (fs : Fs) {p q : String} (h : q ≠ p) :
    fsGet (fsRemove fs p) q = fsGet fs q := by
  induction fs with
  | nil => rfl
  | cons e rest ih =>
    rcases e with ⟨q', w⟩
    rw [fsRemove_cons]
    by_cases hq : q' = p
    · rw [if_pos hq, ih]
      have hne : q' ≠ q := fun hh => h (hh ▸ hq)
      show fsGet rest q = if q' = q then some w else fsGet rest q
      rw [if_neg hne]
    · rw [if_neg hq]
      show (if q' = q then some w else fsGet (fsRemove rest p) q) =
        if q' = q then some w else fsGet rest q
      rw [ih]

theorem fsRemove_eq_self {fs : Fs} {p : String} (h : p ∉ fsKeys fs) :
    fsRemove fs p = fs := by
  refine List.filter_eq_self.mpr ?_
  intro e he
  have hne : e.1 ≠ p := fun hh => h (hh ▸ List.mem_map.mpr ⟨e, he, rfl⟩)
  simp [hne]

theorem fsSet_eq_self {fs : Fs} {p : String} {v : FileContent}
    (h : fsGet fs p = some v) : fsSet fs p v = fs := by
  induction fs with
  | nil => simp [fsGet, alookup] at h
  | cons e rest ih =>
    rcases e with ⟨q, w⟩
    by_cases hq : q = p
    · simp [fsGet, alookup, hq] at h
      simp [fsSet, hq, h]
    · simp [fsGet, alookup, hq] at h
      simp [fsSet, hq, ih h]

theorem mem_fsKeys_of_get {fs : Fs} {p : String} {v : FileContent}
    (h : fsGet fs p = some v) : p ∈ fsKeys fs :=
  List.mem_map.mpr ⟨(p, v), mem_of_alookup_eq_some h, rfl⟩

theorem fsSet_append_not_mem {fs : Fs} {p : String} (v : FileContent)
    (h : p ∉ fsKeys fs) : fsSet fs p v = fs ++ [(p, v)] := by
  induction fs with
  | nil => rfl
  | cons e rest ih =>
    rcases e with ⟨q, w⟩
    have h1 : q ≠ p := fun hh => h (by simp [fsKeys, hh])
    have h2 : p ∉ fsKeys rest := fun hh => h (by simp [fsKeys] at hh ⊢; exact Or.inr hh)
    simp only [fsSet, if_neg h1, ih h2, List.cons_append]

theorem fsKeys_fsSet_mem {fs : Fs} {p : String} (v : FileContent)
    (h : p ∈ fsKeys fs) : fsKeys (fsSet fs p v) = fsKeys fs := by
  induction fs with
  | nil => cases h
  | cons e rest ih =>
    rcases e with ⟨q, w⟩
    by_cases hq : q = p
    · simp [fsSet, hq, fsKeys]
    · have h2 : p ∈ fsKeys rest := by
        rcases List.mem_cons.mp (show p ∈ q :: fsKeys rest from h) with hh | hh
        · exact absurd hh.symm hq
        · exact hh
      simp only [fsSet, if_neg hq, fsKeys, List.map_cons]
      exact congrArg (List.cons q) (ih h2)

theorem fsSet_append_left {fs : Fs} (gs : Fs) {p : String} (v : FileContent)
    (h : p ∈ fsKeys fs) : fsSet (fs ++ gs) p v = fsSet fs p v ++ gs := by
  induction fs with
  | nil => cases h
  | cons e rest ih =>
    rcases e with ⟨q, w⟩
    by_cases hq : q = p
    · simp [fsSet, hq]
    · have h2 : p ∈ fsKeys rest := by
        rcases List.mem_cons.mp (show p ∈ q :: fsKeys rest from h) with hh | hh
        · exact absurd hh.symm hq
        · exact hh
      simp only [List.cons_append, fsSet, if_neg hq]
      exact congrArg (List.cons (q, w)) (ih h2)

theorem persist_ok_get {fs : Fs} (jp : String) (v : FileContent)
    (hne : withSuffixTmp jp ≠ jp) :
    fsGet (persistStep fs jp v true true) jp = some v := by
  simp only [persistStep, if_pos]
  rw [fsGet_fsRemove_ne _ (Ne.symm hne), fsGet_fsSet_self]

theorem persist_fail_eq {fs : Fs} {jp : String} (v : FileContent) {wk rk : Bool}
    (hfail : wk = false ∨ rk = false) (htmp : withSuffixTmp jp ∉ fsKeys fs) :
    persistStep fs jp v wk rk = fs := by
  rcases hfail with rfl | rfl
  · simp only [persistStep, Bool.false_eq_true, if_false]
    exact fsRemove_eq_self htmp
  · cases wk with
    | false =>
      simp only [persistStep, Bool.false_eq_true, if_false]
      exact fsRemove_eq_self htmp
    | true =>
      simp only [persistStep, if_pos, Bool.false_eq_true, if_false]
      rw [fsSet_append_not_mem v htmp]
      show List.filter _ (fs ++ [(withSuffixTmp jp, v)]) = fs
      rw [List.filter_append]
      have h1 : List.filter (fun e => decide ¬(e.1 = withSuffixTmp jp))
          [(withSuffixTmp jp, v)] = [] := by simp
      have h2 : fsRemove fs (withSuffixTmp jp) = fs := fsRemove_eq_self htmp
      calc List.filter (fun e => e.1 ≠ withSuffixTmp jp) fs ++
            List.filter (fun e => e.1 ≠ withSuffixTmp jp) [(withSuffixTmp jp, v)]
          = fs ++ [] := by rw [show List.filter (fun e => e.1 ≠ withSuffixTmp jp) fs =
              fsRemove fs (withSuffixTmp jp) from rfl, h2]; simp
        _ = fs := List.append_nil fs

theorem persist_ok_eq {fs : Fs} {jp : String} (v : FileContent)
    (hjp : jp ∈ fsKeys fs) (htmp : withSuffixTmp jp ∉ fsKeys fs) :
    persistStep fs jp v true true = fsSet fs jp v := by
  simp only [persistStep, if_pos]
  rw [fsSet_append_not_mem v htmp, fsSet_append_left _ v hjp]
  show List.filter _ (fsSet fs jp v ++ [(withSuffixTmp jp, v)]) = _
  rw [List.filter_append]
  have h2 : fsRemove (fsSet fs jp v) (withSuffixTmp jp) = fsSet fs jp v := by
    refine fsRemove_eq_self ?_
    rw [fsKeys_fsSet_mem v hjp]
    exact htmp
  rw [show List.filter (fun e => e.1 ≠ withSuffixTmp jp) (fsSet fs jp v) =
    fsRemove (fsSet fs jp v) (withSuffixTmp jp) from rfl, h2]
  simp

/-! ## Lemmas: the main driver -/

theorem runFolder_processed (net : Net) (pflags : String → Bool × Bool)
    (out_root base_url day folder : String) :
    ∀ (files : List String) (st : MainOut),
      (runFolder net pflags out_root base_url day folder files st).processed =
        st.processed ++ files.map (fun f => folder ++ "/" ++ f) := by
  intro files
  induction files with
  | nil => intro st; simp [runFolder]
  | cons f files ih =>
    intro st
    show (runFolder net pflags out_root base_url day folder files _).processed = _
    rw [ih]
    simp

theorem mainRun_processed (net : Net) (pflags : String → Bool × Bool)
    (listing : String → Option (List String)) (schedules_dir out_root base_url : String)
    (fs : Fs) (images : List String) :
    processedOf (mainRun net pflags listing schedules_dir out_root base_url fs images) =
      allFiles listing schedules_dir := by
  have hday : ∀ (day : String) (st : MainOut),
      (runDay net pflags listing schedules_dir out_root base_url day st).processed =
        st.processed ++ dayFiles listing schedules_dir day := by
    intro day st
    unfold runDay dayFiles
    cases hl : listing (schedules_dir ++ "/" ++ day) with
    | none => simp [hl]
    | some files => simp [hl, runFolder_processed]
  show (runDay net pflags listing schedules_dir out_root base_url "tomorrow"
      (runDay net pflags listing schedules_dir out_root base_url "today"
        ⟨fs, images, 0, []⟩)).processed = _
  rw [hday, hday]
  simp [allFiles]

/-! ## Lemmas: strings, slugs, and the public URL -/

theorem data_append_head {a : String} (b : String) {c : Char} {t : List Char}
    (h : a.data = c :: t) : (a ++ b).data = c :: (t ++ b.data) := by
  rw [String.data_append, h]
  rfl

theorem pyStrip_eq_self {u : String} (h1 : ∃ t, u.data = 'h' :: t)
    (h2 : ∃ t, u.data.reverse = 'p' :: t) : pyStrip u = u := by
  rcases h1 with ⟨t1, ht1⟩
  rcases h2 with ⟨t2, ht2⟩
  have hd1 : u.data.dropWhile Char.isWhitespace = u.data := by
    rw [ht1, List.dropWhile_cons, show Char.isWhitespace 'h' = false from rfl]
    simp
  have hd2 : u.data.reverse.dropWhile Char.isWhitespace = u.data.reverse := by
    rw [ht2, List.dropWhile_cons, show Char.isWhitespace 'p' = false from rfl]
    simp
  apply String.ext
  show ((u.data.dropWhile Char.isWhitespace).reverse.dropWhile Char.isWhitespace).reverse =
    u.data
  rw [hd1, hd2, List.reverse_reverse]

theorem publicUrl_data (base_url orn ch day s : String) :
    (publicUrl base_url orn ch day s).data =
      base_url.data ++ ("/" ++ orn ++ "/" ++ ch ++ "/" ++ day ++ "/" ++
        slugify s ++ ".webp").data := by
  simp [publicUrl, String.data_append, List.append_assoc]

theorem publicUrl_head (base_url orn ch day s : String)
    (h : pyStartsWith base_url "http" = true) :
    ∃ t, (publicUrl base_url orn ch day s).data = 'h' :: t := by
  rcases List.isPrefixOf_iff_prefix.mp h with ⟨t0, ht0⟩
  have hb : base_url.data = 'h' :: ('t' :: 't' :: 'p' :: t0) := by rw [← ht0]; rfl
  refine ⟨'t' :: 't' :: 'p' :: (t0 ++ ("/" ++ orn ++ "/" ++ ch ++ "/" ++ day ++ "/" ++
    slugify s ++ ".webp").data), ?_⟩
  rw [publicUrl_data, hb]
  rfl

theorem publicUrl_last (base_url orn ch day s : String) :
    ∃ t, (publicUrl base_url orn ch day s).data.reverse = 'p' :: t := by
  refine ⟨'b' :: 'e' :: 'w' :: '.' ::
    (base_url ++ "/" ++ orn ++ "/" ++ ch ++ "/" ++ day ++ "/" ++ slugify s).data.reverse, ?_⟩
  show ((base_url ++ "/" ++ orn ++ "/" ++ ch ++ "/" ++ day ++ "/" ++ slugify s) ++
    ".webp").data.reverse = _
  rw [String.data_append, List.reverse_append]
  rfl

theorem pyStrip_publicUrl (base_url orn ch day s : String)
    (h : pyStartsWith base_url "http" = true) :
    pyStrip (publicUrl base_url orn ch day s) = publicUrl base_url orn ch day s :=
  pyStrip_eq_self (publicUrl_head base_url orn ch day s h) (publicUrl_last base_url orn ch day s)

theorem publicUrl_startsWith (base_url orn ch day s : String)
    (h : pyStartsWith base_url "http" = true) :
    pyStartsWith (publicUrl base_url orn ch day s) "http" = true := by
  have h' := List.isPrefixOf_iff_prefix.mp h
  show List.isPrefixOf "http".data (publicUrl base_url orn ch day s).data = true
  rw [List.isPrefixOf_iff_prefix, publicUrl_data]
  exact h'.trans (List.prefix_append _ _)

theorem append_webp_inj {pre s1 s2 : String}
    (h : pre ++ s1 ++ ".webp" = pre ++ s2 ++ ".webp") : s1 = s2 := by
  have hd := congrArg String.data h
  rw [String.data_append, String.data_append, String.data_append, String.data_append] at hd
  exact String.ext (List.append_cancel_left (List.append_cancel_right hd))

/-! ## Lemmas: tasks -/

theorem mkTasks_names (urls : List (String × String)) (out_root ch day : String) :
    (mkTasks urls out_root ch day).map (fun t => t.show_name) = urls.map Prod.fst := by
  simp [mkTasks, List.map_map]

theorem mkTasks_out_path (urls : List (String × String)) (out_root ch day : String)
    {t : FetchTask} (h : t ∈ mkTasks urls out_root ch day) :
    t.out_path = out_root ++ "/" ++ ch ++ "/" ++ day ++ "/" ++ slugify t.show_name ++ ".webp" := by
  rcases List.mem_map.mp h with ⟨su, hsu, rfl⟩
  rfl

theorem mkTasks_mem (urls : List (String × String)) (out_root ch day : String)
    {s u : String} (h : (s, u) ∈ urls) :
    (⟨s, u, out_root ++ "/" ++ ch ++ "/" ++ day ++ "/" ++ slugify s ++ ".webp"⟩ : FetchTask) ∈
      mkTasks urls out_root ch day :=
  List.mem_map.mpr ⟨(s, u), h, rfl⟩

/-! ## Bridging lemmas for the per-document pipeline -/

theorem entry_eta (p : ProgramEntry) : ({ p with show_logo := p.show_logo } : ProgramEntry) = p :=
  rfl

theorem getE_mem {l : List ProgramEntry} {j : Nat} (h : j < l.length) : getE l j ∈ l := by
  unfold getE
  rw [List.getD_eq_getElem l default h]
  exact List.getElem_mem h

theorem mem_getE {l : List ProgramEntry} {r : ProgramEntry} (h : r ∈ l) :
    ∃ j, j < l.length ∧ getE l j = r := by
  rcases List.mem_iff_getElem.mp h with ⟨j, hj, hg⟩
  exact ⟨j, hj, by rw [getE, List.getD_eq_getElem l default hj, hg]⟩

theorem list_ext_getE {l1 l2 : List ProgramEntry} (hlen : l1.length = l2.length)
    (h : ∀ j, j < l1.length → getE l1 j = getE l2 j) : l1 = l2 := by
  refine List.ext_getElem hlen ?_
  intro j hj1 hj2
  have := h j hj1
  rwa [getE, getE, List.getD_eq_getElem l1 default hj1,
    List.getD_eq_getElem l2 default hj2] at this

theorem rewrite_names (resolve : String → String) (progs : List ProgramEntry) {j : Nat}
    (h : j < progs.length) :
    (getE (rewriteAll resolve (dedupIndexes progs) progs) j).show_name =
      (getE progs j).show_name := by
  rw [rewrite_spec resolve progs h]
  by_cases hb : pyStrip ((getE progs j).show_name) = "" <;> simp [hb]

theorem rewrite_logo_nonblank (resolve : String → String) (progs : List ProgramEntry) {j : Nat}
    (h : j < progs.length) (hnb : pyStrip ((getE progs j).show_name) ≠ "") :
    (getE (rewriteAll resolve (dedupIndexes progs) progs) j).show_logo =
      resolve (pyStrip ((getE progs j).show_name)) := by
  rw [rewrite_spec resolve progs h, if_neg hnb]

theorem rewrite_blank (resolve : String → String) (progs : List ProgramEntry) {j : Nat}
    (h : j < progs.length) (hb : pyStrip ((getE progs j).show_name) = "") :
    getE (rewriteAll resolve (dedupIndexes progs) progs) j = getE progs j := by
  rw [rewrite_spec resolve progs h, if_pos hb]

theorem dedupIdxAux_congr :
    ∀ (rs rs' : List ProgramEntry), rs.length = rs'.length →
      (∀ k, k < rs.length → pyStrip ((getE rs k).show_name) = pyStrip ((getE rs' k).show_name)) →
      ∀ (i : Nat) (m : List (String × List Nat)), dedupIdxAux rs i m = dedupIdxAux rs' i m := by
  intro rs
  induction rs with
  | nil =>
    intro rs' hlen _ i m
    cases rs' with
    | nil => rfl
    | cons r' rs' => cases hlen
  | cons r rs ih =>
    intro rs' hlen hk i m
    cases rs' with
    | nil => cases hlen
    | cons r' rs' =>
      have h0 : pyStrip r.show_name = pyStrip r'.show_name := by
        have := hk 0 (by simp)
        rwa [getE_cons_zero, getE_cons_zero] at this
      have htail : ∀ k, k < rs.length →
          pyStrip ((getE rs k).show_name) = pyStrip ((getE rs' k).show_name) := by
        intro k hk'
        have := hk (k + 1) (by simpa using Nat.succ_lt_succ hk')
        rwa [getE_cons_succ, getE_cons_succ] at this
      have hlen' : rs.length = rs'.length := by simpa using hlen
      by_cases hb : pyStrip r.show_name = ""
      · rw [dedupIdxAux_cons_blank rs i m hb,
          dedupIdxAux_cons_blank rs' i m (h0 ▸ hb)]
        exact ih rs' hlen' htail (i + 1) m
      · rw [dedupIdxAux_cons_named rs i m hb,
          dedupIdxAux_cons_named rs' i m (h0 ▸ hb), h0]
        exact ih rs' hlen' htail (i + 1) _

theorem dedupIndexes_congr {rs rs' : List ProgramEntry} (hlen : rs.length = rs'.length)
    (hk : ∀ k, k < rs.length →
      pyStrip ((getE rs k).show_name) = pyStrip ((getE rs' k).show_name)) :
    dedupIndexes rs = dedupIndexes rs' :=
  dedupIdxAux_congr rs rs' hlen hk 0 []

theorem fsGet_fsRemove_self (fs : Fs) (p : String) : fsGet (fsRemove fs p) p = none := by
  induction fs with
  | nil => rfl
  | cons e rest ih =>
    rcases e with ⟨q, w⟩
    rw [fsRemove_cons]
    by_cases hq : q = p
    · rw [if_pos hq]
      exact ih
    · rw [if_neg hq]
      show (if q = p then some w else fsGet (fsRemove rest p) p) = none
      rw [if_neg hq]
      exact ih

theorem worker_download_fail (net : Net) (t : FetchTask) (images : List String) (c : Nat)
    {c' : Nat} (hmiss : t.out_path ∉ images)
    (hd : download_with_retries net t.url c = (none, c')) :
    worker net t images c = (⟨t.show_name, t.out_path, .failed⟩, images, c') := by
  simp [worker, hmiss, hd]

theorem process_doc (net : Net) (wk rk : Bool) (out_root base_url day : String)
    (fs : Fs) (images : List String) (c : Nat) (jp : String) {d : Document}
    (h : fsGet fs jp = some (.doc d)) :
    process_json_file net wk rk out_root base_url day fs images c jp =
      ⟨persistStep fs jp (.doc { d with programs :=
          (processPrograms net out_root base_url day (pathStem jp) d.programs images c).out })
          wk rk,
        (processPrograms net out_root base_url day (pathStem jp) d.programs images c).images,
        (processPrograms net out_root base_url day (pathStem jp) d.programs images c).reqCount⟩ := by
  simp [process_json_file, h]

theorem processPrograms_out (net : Net) (out_root base_url day ch : String)
    (progs : List ProgramEntry) (images : List String) (c : Nat) :
    (processPrograms net out_root base_url day ch progs images c).out =
      rewriteAll (resolveUrl (runTasks net (mkTasks (dedupUrls progs) out_root ch day) images c).1
        base_url (lastComponent out_root) ch day) (dedupIndexes progs) progs := rfl

theorem processPrograms_results (net : Net) (out_root base_url day ch : String)
    (progs : List ProgramEntry) (images : List String) (c : Nat) :
    (processPrograms net out_root base_url day ch progs images c).results =
      (runTasks net (mkTasks (dedupUrls progs) out_root ch day) images c).1 := rfl

theorem processPrograms_images (net : Net) (out_root base_url day ch : String)
    (progs : List ProgramEntry) (images : List String) (c : Nat) :
    (processPrograms net out_root base_url day ch progs images c).images =
      (runTasks net (mkTasks (dedupUrls progs) out_root ch day) images c).2.1 := rfl

theorem processPrograms_reqCount (net : Net) (out_root base_url day ch : String)
    (progs : List ProgramEntry) (images : List String) (c : Nat) :
    (processPrograms net out_root base_url day ch progs images c).reqCount =
      (runTasks net (mkTasks (dedupUrls progs) out_root ch day) images c).2.2 := rfl

/-! ## Claim theorems -/

/-- C1 (counterexample): the claim as stated quantifies over every show name,
including the blank one.  A document whose two entries both have the empty
`show_name` but different `show_logo` values is left untouched by the run
(blank names are skipped), so after processing, two entries with the same
exact `show_name` hold different `show_logo` strings. -/
theorem c1_counterexample :
    fsGet (process_json_file netFail true true cOutRoot cBase "today"
        [(cPath, FileContent.doc cDocBlank)] [] 0 cPath).fs cPath =
      some (FileContent.doc cDocBlank) ∧
    (getE cDocBlank.programs 0).show_name = (getE cDocBlank.programs 1).show_name ∧
    (getE cDocBlank.programs 0).show_logo ≠ (getE cDocBlank.programs 1).show_logo := by
  decide

/-- C1 (amended): after processing one schedule document, every program entry
whose `show_name` is non-blank and equal (as an exact string) to another
entry's `show_name` receives the identical final `show_logo` value. -/
theorem c1_uniform_rewrite (net : Net) (out_root base_url day : String) (fs : Fs)
    (images : List String) (c : Nat) (jp : String) (d d' : Document)
    (h1 : fsGet fs jp = some (.doc d))
    (h2 : fsGet (process_json_file net true true out_root base_url day fs images c jp).fs jp =
      some (.doc d'))
    (hne : withSuffixTmp jp ≠ jp) :
    ∀ i j, i < d'.programs.length → j < d'.programs.length →
      (getE d'.programs i).show_name = (getE d'.programs j).show_name →
      pyStrip ((getE d'.programs i).show_name) ≠ "" →
      (getE d'.programs i).show_logo = (getE d'.programs j).show_logo := by
  rw [process_doc net true true out_root base_url day fs images c jp h1] at h2
  rw [persist_ok_get jp _ hne] at h2
  simp only [Option.some.injEq, FileContent.doc.injEq] at h2
  subst h2
  simp only [processPrograms_out]
  intro i j hi hj hnm hnb
  rw [length_rewriteAll] at hi hj
  set resolve := resolveUrl
    (runTasks net (mkTasks (dedupUrls d.programs) out_root (pathStem jp) day) images c).1
    base_url (lastComponent out_root) (pathStem jp) day with hres
  rw [rewrite_names resolve d.programs hi, rewrite_names resolve d.programs hj] at hnm
  rw [rewrite_names resolve d.programs hi] at hnb
  rw [rewrite_logo_nonblank resolve d.programs hi hnb,
    rewrite_logo_nonblank resolve d.programs hj (by rw [← hnm]; exact hnb), hnm]

/-- C1 (witness): the spec's own example — two `News` entries, one with a
source URL — both end with the computed public URL after a successful run. -/
theorem c1_uniform_rewrite_witness :
    (getE (⟨"rest", [mkE "News" cNewsUrl, mkE "News" cNewsUrl]⟩ : Document).programs 0).show_logo =
      (getE (⟨"rest", [mkE "News" cNewsUrl, mkE "News" cNewsUrl]⟩ : Document).programs 1).show_logo := by
  refine c1_uniform_rewrite netOk cOutRoot cBase "today"
    [(cPath, FileContent.doc cDocNews)] [] 0 cPath cDocNews
    ⟨"rest", [mkE "News" cNewsUrl, mkE "News" cNewsUrl]⟩
    (by decide) (by decide) (by decide) 0 1 (by decide) (by decide) (by decide) (by decide)

/-- C3: persistence is atomic and failure-isolated.  (i) If the write or the
replace step fails, the whole on-disk state is unchanged — in particular the
original document is byte-for-byte intact; (ii) the temporary file does not
survive, whether the persist failed or succeeded; (iii) on success the
document's path holds exactly the new serialized content in one replace; and
(iv) the run always continues with every remaining document: the list of
documents handed to `process_json_file` is exactly the discovered listing,
independent of any per-document persist fault. -/
theorem c3_atomic_persistence (net : Net) (out_root base_url day : String) (fs : Fs)
    (images : List String) (c : Nat) (jp : String) (wk rk : Bool)
    (hfail : wk = false ∨ rk = false)
    (htmp : withSuffixTmp jp ∉ fsKeys fs)
    (hne : withSuffixTmp jp ≠ jp) :
    (process_json_file net wk rk out_root base_url day fs images c jp).fs = fs ∧
    fsGet (process_json_file net wk rk out_root base_url day fs images c jp).fs
      (withSuffixTmp jp) = none ∧
    (∀ v : FileContent, fsGet (persistStep fs jp v true true) jp = some v ∧
      fsGet (persistStep fs jp v true true) (withSuffixTmp jp) = none) ∧
    (∀ (pflags : String → Bool × Bool) (listing : String → Option (List String))
        (sdir : String) (fs0 : Fs) (images0 : List String),
      processedOf (mainRun net pflags listing sdir out_root base_url fs0 images0) =
        allFiles listing sdir) := by
  have hunch : (process_json_file net wk rk out_root base_url day fs images c jp).fs = fs := by
    cases hg : fsGet fs jp with
    | none => simp [process_json_file, hg]
    | some fc =>
      cases fc with
      | invalidJson raw => simp [process_json_file, hg]
      | doc d =>
        rw [process_doc net wk rk out_root base_url day fs images c jp hg]
        exact persist_fail_eq _ hfail htmp
  refine ⟨hunch, ?_, ?_, ?_⟩
  · rw [hunch]
    exact alookup_eq_none_iff.mpr htmp
  · intro v
    refine ⟨persist_ok_get jp v hne, ?_⟩
    simp only [persistStep, if_pos]
    exact fsGet_fsRemove_self _ _
  · intro pflags listing sdir fs0 images0
    exact mainRun_processed net pflags listing sdir out_root base_url fs0 images0

/-- C3 (witness): a concrete failed persist leaves the concrete document
byte-identical on disk, removes the temporary, a successful persist replaces
the content, and the run's processed list equals the discovered listing. -/
theorem c3_atomic_persistence_witness :
    (process_json_file netOk true false cOutRoot cBase "today"
        [(cPath, FileContent.doc cDocNews)] [] 0 cPath).fs =
      [(cPath, FileContent.doc cDocNews)] ∧
    fsGet (process_json_file netOk true false cOutRoot cBase "today"
        [(cPath, FileContent.doc cDocNews)] [] 0 cPath).fs (withSuffixTmp cPath) = none ∧
    (∀ v : FileContent,
      fsGet (persistStep [(cPath, FileContent.doc cDocNews)] cPath v true true) cPath = some v ∧
      fsGet (persistStep [(cPath, FileContent.doc cDocNews)] cPath v true true)
        (withSuffixTmp cPath) = none) ∧
    (∀ (pflags : String → Bool × Bool) (listing : String → Option (List String))
        (sdir : String) (fs0 : Fs) (images0 : List String),
      processedOf (mainRun netOk pflags listing sdir cOutRoot cBase fs0 images0) =
        allFiles listing sdir) :=
  c3_atomic_persistence netOk cOutRoot cBase "today" [(cPath, FileContent.doc cDocNews)] [] 0
    cPath true false (Or.inr rfl) (by decide) (by decide)

/-- C10: a document whose bytes do not parse as JSON is abandoned before any
fetch or write: the run's state (filesystem, image cache, request count) is
returned unchanged, and the driver still hands every discovered document to
the processor. -/
theorem c10_invalid_json (net : Net) (wk rk : Bool) (out_root base_url day : String)
    (fs : Fs) (images : List String) (c : Nat) (jp raw : String)
    (h : fsGet fs jp = some (.invalidJson raw)) :
    process_json_file net wk rk out_root base_url day fs images c jp = ⟨fs, images, c⟩ ∧
    (∀ (pflags : String → Bool × Bool) (listing : String → Option (List String))
        (sdir : String) (fs0 : Fs) (images0 : List String),
      processedOf (mainRun net pflags listing sdir out_root base_url fs0 images0) =
        allFiles listing sdir) := by
  constructor
  · simp [process_json_file, h]
  · intro pflags listing sdir fs0 images0
    exact mainRun_processed net pflags listing sdir out_root base_url fs0 images0

/-- C10 (witness): a concrete malformed document is returned untouched with
zero requests issued. -/
theorem c10_invalid_json_witness :
    process_json_file netOk true true cOutRoot cBase "today"
        [(cPath, FileContent.invalidJson "not-json-bytes")] [] 0 cPath =
      ⟨[(cPath, FileContent.invalidJson "not-json-bytes")], [], 0⟩ ∧
    (∀ (pflags : String → Bool × Bool) (listing : String → Option (List String))
        (sdir : String) (fs0 : Fs) (images0 : List String),
      processedOf (mainRun netOk pflags listing sdir cOutRoot cBase fs0 images0) =
        allFiles listing sdir) :=
  c10_invalid_json netOk true true cOutRoot cBase "today"
    [(cPath, FileContent.invalidJson "not-json-bytes")] [] 0 cPath "not-json-bytes" (by decide)

/-- C5 (counterexample): grouping is keyed by the *stripped* show name, not
the raw string — `"News"` and `" News"` differ character for character yet
land in the same show-group, refuting "identical character for character …
no normalization applied". -/
theorem c5_counterexample :
    ("News", [0, 1]) ∈ dedupIndexes cDocWs ∧
    (getE cDocWs 0).show_name ≠ (getE cDocWs 1).show_name := by
  decide

/-- C5 (amended): the grouping key is case-sensitive string equality on the
whitespace-stripped `show_name`: two entries with non-blank stripped names
share a show-group iff their stripped names are identical character for
character — no case folding or any other normalization is applied. -/
theorem c5_grouping_key (progs : List ProgramEntry) (i j : Nat)
    (hi : i < progs.length) (hj : j < progs.length)
    (hnb : pyStrip ((getE progs i).show_name) ≠ "") :
    (∃ s l, (s, l) ∈ dedupIndexes progs ∧ i ∈ l ∧ j ∈ l) ↔
      pyStrip ((getE progs i).show_name) = pyStrip ((getE progs j).show_name) := by
  constructor
  · rintro ⟨s, l, hg, hil, hjl⟩
    rw [((group_mem_iff hg i).mp hil).2, ((group_mem_iff hg j).mp hjl).2]
  · intro heq
    rcases group_exists hi hnb with ⟨l, hg, hil⟩
    exact ⟨_, l, hg, hil, (group_mem_iff hg j).mpr ⟨hj, heq.symm⟩⟩

/-- C5 (witness): instantiated at the whitespace document — `"News"` and
`" News"` strip to the same key, so the iff holds with both sides true. -/
theorem c5_grouping_key_witness :
    (∃ s l, (s, l) ∈ dedupIndexes cDocWs ∧ 0 ∈ l ∧ 1 ∈ l) ↔
      pyStrip ((getE cDocWs 0).show_name) = pyStrip ((getE cDocWs 1).show_name) :=
  c5_grouping_key cDocWs 0 1 (by decide) (by decide) (by decide)

/-- C6 (counterexample): with the schedules root absent (both day-bucket
listings return nothing), the run completes normally — it returns `ok` with
no document read, no state touched, and zero requests — rather than aborting
with a fatal configuration error. -/
theorem c6_counterexample :
    mainRun netFail (fun _ => (true, true)) (fun _ => none) "schedule" cOutRoot cBase [] [] =
      Except.ok ⟨[], [], 0, []⟩ ∧
    ∀ e, mainRun netFail (fun _ => (true, true)) (fun _ => none) "schedule" cOutRoot cBase [] []
      ≠ Except.error e := by
  refine ⟨rfl, ?_⟩
  intro e h
  rw [show mainRun netFail (fun _ => (true, true)) (fun _ => none) "schedule" cOutRoot cBase
      [] [] = Except.ok ⟨[], [], 0, []⟩ from rfl] at h
  cases h

/-- C6 (amended): a missing schedules root is tolerated silently: each absent
day bucket is skipped with `continue`, so the run finishes normally having
read no document, modified nothing, and issued no request. -/
theorem c6_missing_root_silent (net : Net) (pflags : String → Bool × Bool)
    (listing : String → Option (List String)) (sdir out_root base_url : String)
    (fs : Fs) (images : List String)
    (h1 : listing (sdir ++ "/" ++ "today") = none)
    (h2 : listing (sdir ++ "/" ++ "tomorrow") = none) :
    mainRun net pflags listing sdir out_root base_url fs images =
      Except.ok ⟨fs, images, 0, []⟩ := by
  unfold mainRun runDay
  simp [h1, h2]

/-- C6 (witness): the amended statement at a concrete empty filesystem. -/
theorem c6_missing_root_silent_witness :
    mainRun netFail (fun _ => (true, true)) (fun _ => none) "schedule" cOutRoot cBase [] [] =
      Except.ok ⟨[], [], 0, []⟩ :=
  c6_missing_root_silent netFail (fun _ => (true, true)) (fun _ => none) "schedule"
    cOutRoot cBase [] [] rfl rfl

/-- C8: a decode failure is never retried.  If the download succeeds (with
the request counter at `c'` immediately after it) but the bytes do not decode
as an image, the task ends `failed` with the counter still exactly `c'` — no
further request is issued; and only download failures are retried: the
download step never issues more than `RETRY_COUNT` requests, and exhausting
them ends the task `failed` after exactly `RETRY_COUNT` requests. -/
theorem c8_decode_failure_not_retried (net : Net) (t : FetchTask) (images : List String)
    (c : Nat) (hmiss : t.out_path ∉ images) :
    (∀ b c', download_with_retries net t.url c = (some b, c') → net.decodable b = false →
      worker net t images c = (⟨t.show_name, t.out_path, .failed⟩, images, c')) ∧
    (download_with_retries net t.url c).2 ≤ c + RETRY_COUNT ∧
    ((download_with_retries net t.url c).1 = none →
      worker net t images c = (⟨t.show_name, t.out_path, .failed⟩, images, c + RETRY_COUNT)) := by
  refine ⟨?_, ?_, ?_⟩
  · intro b c' hd hb
    exact worker_decode_fail net t images c hmiss hd hb
  · exact (downloadAux_count net t.url RETRY_COUNT c).1
  · intro hnone
    rcases hd : download_with_retries net t.url c with ⟨ob, c'⟩
    rw [hd] at hnone
    cases hnone
    have hc' : c' = c + RETRY_COUNT := by
      have := (downloadAux_count net t.url RETRY_COUNT c).2
      rw [show downloadAux net t.url c RETRY_COUNT = download_with_retries net t.url c from rfl,
        hd] at this
      exact this rfl
    subst hc'
    exact worker_download_fail net t images c hmiss hd

/-- C8 (witness): on a network that serves undecodable bytes, the first
request succeeds, decoding fails, and the task ends `failed` after exactly
one request. -/
theorem c8_decode_failure_not_retried_witness :
    worker netBadBytes ⟨"A", "http://x/a.jpg", "downloaded-images/rai-1/today/a.webp"⟩ [] 0 =
      (⟨"A", "downloaded-images/rai-1/today/a.webp", .failed⟩, [], 1) :=
  (c8_decode_failure_not_retried netBadBytes
      ⟨"A", "http://x/a.jpg", "downloaded-images/rai-1/today/a.webp"⟩ [] 0 (by decide)).1
    "NOTANIMAGE" 1 (by decide) (by decide)

/-- C9 (counterexample): two distinct show names that differ only by case —
`"News"` and `"news"` — both produce tasks, and their destination paths are
the same string: the show-name-to-path map of one document is not injective. -/
theorem c9_counterexample :
    (mkTasks (dedupUrls cDocCase) cOutRoot "rai-1" "today").length = 2 ∧
    (List.getD (mkTasks (dedupUrls cDocCase) cOutRoot "rai-1" "today") 0
        ⟨"", "", ""⟩).show_name ≠
      (List.getD (mkTasks (dedupUrls cDocCase) cOutRoot "rai-1" "today") 1
        ⟨"", "", ""⟩).show_name ∧
    (List.getD (mkTasks (dedupUrls cDocCase) cOutRoot "rai-1" "today") 0
        ⟨"", "", ""⟩).out_path =
      (List.getD (mkTasks (dedupUrls cDocCase) cOutRoot "rai-1" "today") 1
        ⟨"", "", ""⟩).out_path := by
  decide

/-- C9 (amended): destination paths are keyed by the slug, not the show
name: within one document's task list, two tasks whose show names have
different slugs always target distinct destination paths (and, per the
counterexample, two distinct names with equal slugs collide). -/
theorem c9_distinct_slugs_distinct_paths (urls : List (String × String))
    (out_root ch day : String) {t1 t2 : FetchTask}
    (h1 : t1 ∈ mkTasks urls out_root ch day) (h2 : t2 ∈ mkTasks urls out_root ch day)
    (hs : slugify t1.show_name ≠ slugify t2.show_name) : t1.out_path ≠ t2.out_path := by
  rw [mkTasks_out_path urls out_root ch day h1, mkTasks_out_path urls out_root ch day h2]
  intro heq
  exact hs (append_webp_inj heq)

/-- C9 (witness): two tasks with distinct slugs from a concrete document get
distinct destination paths. -/
theorem c9_distinct_slugs_distinct_paths_witness :
    (⟨"Alpha", "http://x/a.jpg", cOutRoot ++ "/" ++ "rai-1" ++ "/" ++ "today" ++ "/" ++
        slugify "Alpha" ++ ".webp"⟩ : FetchTask).out_path ≠
      (⟨"Beta", "http://x/b.jpg", cOutRoot ++ "/" ++ "rai-1" ++ "/" ++ "today" ++ "/" ++
        slugify "Beta" ++ ".webp"⟩ : FetchTask).out_path :=
  c9_distinct_slugs_distinct_paths (dedupUrls cDocTwo) cOutRoot "rai-1" "today"
    (by decide) (by decide) (by decide)

/-- C4: fallback and success resolution per show-group.  For a show-group
`(s, l)` of a document and any of its entry positions `j`: if no canonical
`http`-prefixed source URL was recorded for `s`, the entry ends with the
fallback constant; if the group's task result has outcome `failed`, likewise;
and if the task result's outcome is `cached` or `fetched` (not `failed`),
the entry ends with the Namer's public URL
`{base_url}/{out_root_name}/{channel_folder}/{day}/{slug}.webp`. -/
theorem c4_fallback_correctness (net : Net) (out_root base_url day ch : String)
    (progs : List ProgramEntry) (images : List String) (c : Nat) {s : String} {l : List Nat}
    (hg : (s, l) ∈ dedupIndexes progs) {j : Nat} (hj : j ∈ l) :
    (alookup (dedupUrls progs) s = none →
      (getE (processPrograms net out_root base_url day ch progs images c).out j).show_logo =
        FALLBACK_LOGO_URL) ∧
    (∀ r, (runTasks net (mkTasks (dedupUrls progs) out_root ch day) images c).1.find?
        (fun r' => r'.show_name = s) = some r →
      (r.outcome = .failed →
        (getE (processPrograms net out_root base_url day ch progs images c).out j).show_logo =
          FALLBACK_LOGO_URL) ∧
      (r.outcome ≠ .failed →
        (getE (processPrograms net out_root base_url day ch progs images c).out j).show_logo =
          publicUrl base_url (lastComponent out_root) ch day s)) := by
  rcases (group_mem_iff hg j).mp hj with ⟨hjlen, hjs⟩
  have hnb : pyStrip ((getE progs j).show_name) ≠ "" := by
    rw [hjs]
    exact (group_key_spec hg).1
  have hlogo :
      (getE (processPrograms net out_root base_url day ch progs images c).out j).show_logo =
        resolveUrl (runTasks net (mkTasks (dedupUrls progs) out_root ch day) images c).1
          base_url (lastComponent out_root) ch day s := by
    rw [processPrograms_out, rewrite_logo_nonblank _ progs hjlen hnb, hjs]
  constructor
  · intro hnone
    have hnames : ((runTasks net (mkTasks (dedupUrls progs) out_root ch day) images c).1).map
        (fun r => r.show_name) = (dedupUrls progs).map Prod.fst := by
      rw [runTasks_names, mkTasks_names]
    have hfind : (runTasks net (mkTasks (dedupUrls progs) out_root ch day) images c).1.find?
        (fun r' => r'.show_name = s) = none := by
      rw [List.find?_eq_none]
      intro r hr
      have : r.show_name ∈ (dedupUrls progs).map Prod.fst := by
        rw [← hnames]
        exact List.mem_map.mpr ⟨r, hr, rfl⟩
      simp only [decide_eq_true_eq]
      rintro rfl
      exact (alookup_eq_none_iff.mp hnone) this
    rw [hlogo, resolveUrl, hfind]
  · intro r hfind
    rw [hlogo, resolveUrl, hfind]
    constructor
    · intro hfailed
      simp [hfailed]
    · intro hnf
      simp [hnf]

/-- C4 (witness): show `A` with a reachable, decodable source URL ends with
the public URL; the task result for `A` has outcome `fetched`. -/
theorem c4_fallback_correctness_witness :
    (getE (processPrograms netOk cOutRoot cBase "today" "rai-1" cDocOneUrl.programs [] 0).out
        0).show_logo =
      publicUrl cBase (lastComponent cOutRoot) "rai-1" "today" "A" :=
  ((c4_fallback_correctness netOk cOutRoot cBase "today" "rai-1" cDocOneUrl.programs [] 0
      (s := "A") (l := [0]) (by decide) (j := 0) (by decide)).2
    ⟨"A", "downloaded-images/rai-1/today/a.webp", .fetched⟩ (by decide)).2 (by decide)

/-- C7: frame property of one document run.  The processed document has the
same number of entries; every entry whose `show_name` is blank (empty or
whitespace-only) is identical to its input entry; and for every entry —
rewritten or not — the fields `show_name`, `start_time`, `end_time`,
`episode_number`, `show_category` and `show_description` are unchanged:
only `show_logo` is ever mutated. -/
theorem c7_blank_invariance_and_frame (net : Net) (out_root base_url day : String)
    (fs : Fs) (images : List String) (c : Nat) (jp : String) (d d' : Document)
    (h1 : fsGet fs jp = some (.doc d))
    (h2 : fsGet (process_json_file net true true out_root base_url day fs images c jp).fs jp =
      some (.doc d'))
    (hne : withSuffixTmp jp ≠ jp) :
    d'.programs.length = d.programs.length ∧
    ∀ j, j < d.programs.length →
      (pyStrip ((getE d.programs j).show_name) = "" →
        getE d'.programs j = getE d.programs j) ∧
      ((getE d'.programs j).show_name = (getE d.programs j).show_name ∧
        (getE d'.programs j).start_time = (getE d.programs j).start_time ∧
        (getE d'.programs j).end_time = (getE d.programs j).end_time ∧
        (getE d'.programs j).episode_number = (getE d.programs j).episode_number ∧
        (getE d'.programs j).show_category = (getE d.programs j).show_category ∧
        (getE d'.programs j).show_description = (getE d.programs j).show_description) := by
  rw [process_doc net true true out_root base_url day fs images c jp h1] at h2
  rw [persist_ok_get jp _ hne] at h2
  simp only [Option.some.injEq, FileContent.doc.injEq] at h2
  subst h2
  simp only [processPrograms_out]
  refine ⟨length_rewriteAll _ _ _, ?_⟩
  intro j hj
  constructor
  · intro hb
    exact rewrite_blank _ d.programs hj hb
  · rw [rewrite_spec _ d.programs hj]
    by_cases hb : pyStrip ((getE d.programs j).show_name) = "" <;> simp [hb]

/-- C7 (witness): concrete blank-name document — both entries (blank names,
distinct logos) are byte-identical after the run, and all pass-through
fields are preserved. -/
theorem c7_blank_invariance_and_frame_witness :
    cDocBlank.programs.length = cDocBlank.programs.length ∧
    ∀ j, j < cDocBlank.programs.length →
      (pyStrip ((getE cDocBlank.programs j).show_name) = "" →
        getE cDocBlank.programs j = getE cDocBlank.programs j) ∧
      ((getE cDocBlank.programs j).show_name = (getE cDocBlank.programs j).show_name ∧
        (getE cDocBlank.programs j).start_time = (getE cDocBlank.programs j).start_time ∧
        (getE cDocBlank.programs j).end_time = (getE cDocBlank.programs j).end_time ∧
        (getE cDocBlank.programs j).episode_number =
          (getE cDocBlank.programs j).episode_number ∧
        (getE cDocBlank.programs j).show_category =
          (getE cDocBlank.programs j).show_category ∧
        (getE cDocBlank.programs j).show_description =
          (getE cDocBlank.programs j).show_description) :=
  c7_blank_invariance_and_frame netFail cOutRoot cBase "today"
    [(cPath, FileContent.doc cDocBlank)] [] 0 cPath cDocBlank cDocBlank
    (by decide) (by decide) (by decide)

/-- C2 (counterexample): a show with no usable source URL gets the fallback
URL written into `show_logo` on the first run, and no asset is cached for
it.  The fallback URL is `http`-prefixed, so the second run — on the state
the first run left behind — creates a fetch task for it, misses the cache,
and issues `RETRY_COUNT = 3` network requests instead of zero. -/
theorem c2_counterexample :
    (process_json_file netFail true true cOutRoot cBase "today"
      (process_json_file netFail true true cOutRoot cBase "today"
        [(cPath, FileContent.doc cDocNoUrl)] [] 0 cPath).fs
      (process_json_file netFail true true cOutRoot cBase "today"
        [(cPath, FileContent.doc cDocNoUrl)] [] 0 cPath).images 0 cPath).reqCount = 3 ∧
    (process_json_file netFail true true cOutRoot cBase "today"
      (process_json_file netFail true true cOutRoot cBase "today"
        [(cPath, FileContent.doc cDocNoUrl)] [] 0 cPath).fs
      (process_json_file netFail true true cOutRoot cBase "today"
        [(cPath, FileContent.doc cDocNoUrl)] [] 0 cPath).images 0 cPath).reqCount ≠ 0 := by
  decide

/-- C2 (amended): second-run idempotence holds under the conditions the
counterexample forces: if every show-group of the document had a canonical
URL and no first-run task failed, then running the pipeline again on the
document and cache state the first run left behind performs zero network
fetches — every task short-circuits at the cache probe — and leaves the
on-disk document and image cache byte-identical to the first run's output. -/
theorem c2_second_run_cached (net net2 : Net) (out_root base_url day : String)
    (fs : Fs) (images : List String) (jp : String) (d : Document)
    (hfs : fsGet fs jp = some (.doc d))
    (hjpne : withSuffixTmp jp ≠ jp)
    (htmp : withSuffixTmp jp ∉ fsKeys fs)
    (hbase : pyStartsWith base_url "http" = true)
    (hurls : ∀ s l, (s, l) ∈ dedupIndexes d.programs →
      ∃ u, alookup (dedupUrls d.programs) s = some u)
    (hok : ∀ r ∈ (processPrograms net out_root base_url day (pathStem jp)
        d.programs images 0).results, r.outcome ≠ .failed) :
    process_json_file net2 true true out_root base_url day
        (process_json_file net true true out_root base_url day fs images 0 jp).fs
        (process_json_file net true true out_root base_url day fs images 0 jp).images 0 jp =
      ⟨(process_json_file net true true out_root base_url day fs images 0 jp).fs,
        (process_json_file net true true out_root base_url day fs images 0 jp).images, 0⟩ := by
  -- abbreviations for the first run
  set ch := pathStem jp with hch
  set orn := lastComponent out_root with horn
  set urls1 := dedupUrls d.programs with hurls1
  set tasks1 := mkTasks urls1 out_root ch day with htasks1
  set R1 := runTasks net tasks1 images 0 with hR1
  set out1 := rewriteAll (resolveUrl R1.1 base_url orn ch day) (dedupIndexes d.programs)
    d.programs with hout1def
  have hP1out : (processPrograms net out_root base_url day ch d.programs images 0).out =
      out1 := processPrograms_out net out_root base_url day ch d.programs images 0
  have hP1img : (processPrograms net out_root base_url day ch d.programs images 0).images =
      R1.2.1 := processPrograms_images net out_root base_url day ch d.programs images 0
  have hokR1 : ∀ r ∈ R1.1, r.outcome ≠ .failed := by
    intro r hr
    exact hok r (by rw [processPrograms_results]; exact hr)
  -- facts about the rewritten program list
  have hlen1 : out1.length = d.programs.length := length_rewriteAll _ _ _
  have hnames1 : ∀ k, k < d.programs.length →
      (getE out1 k).show_name = (getE d.programs k).show_name := by
    intro k hk
    exact rewrite_names _ d.programs hk
  have hres1 : ∀ s, (∃ l, (s, l) ∈ dedupIndexes d.programs) →
      resolveUrl R1.1 base_url orn ch day s = publicUrl base_url orn ch day s := by
    rintro s ⟨l, hg⟩
    rcases hurls s l hg with ⟨u, hu⟩
    have hsmem : s ∈ R1.1.map (fun r => r.show_name) := by
      rw [hR1, runTasks_names, htasks1, mkTasks_names]
      exact List.mem_map.mpr ⟨(s, u), mem_of_alookup_eq_some hu, rfl⟩
    rcases List.mem_map.mp hsmem with ⟨r, hrmem, hrname⟩
    have hfindsome : (R1.1.find? (fun r' => r'.show_name = s)).isSome := by
      rw [List.find?_isSome]
      exact ⟨r, hrmem, by simp [hrname]⟩
    rcases Option.isSome_iff_exists.mp hfindsome with ⟨r0, hr0⟩
    have hr0nf : r0.outcome ≠ .failed := hokR1 r0 (List.mem_of_find?_eq_some hr0)
    rw [resolveUrl, hr0]
    simp [hr0nf]
  have hlogo1 : ∀ k, k < d.programs.length →
      pyStrip ((getE d.programs k).show_name) ≠ "" →
      (getE out1 k).show_logo =
        publicUrl base_url orn ch day (pyStrip ((getE d.programs k).show_name)) := by
    intro k hk hnb
    rw [hout1def, rewrite_logo_nonblank _ d.programs hk hnb]
    refine hres1 _ ?_
    rcases group_exists hk hnb with ⟨l, hg, -⟩
    exact ⟨l, hg⟩
  -- group structure is preserved by the rewrite
  have hGout : dedupIndexes out1 = dedupIndexes d.programs := by
    refine dedupIndexes_congr hlen1 ?_
    intro k hk
    rw [hnames1 k (by rw [← hlen1]; exact hk)]
  -- second-run canonical URLs: every group key maps to its public URL
  have hurls2 : ∀ s, (∃ l, (s, l) ∈ dedupIndexes d.programs) →
      alookup (dedupUrls out1) s = some (publicUrl base_url orn ch day s) := by
    rintro s ⟨l, hg⟩
    rcases group_key_spec hg with ⟨hs, hlidx, hlne⟩
    rw [alookup_dedupUrls out1 hs]
    refine firstUrlFrom_all_pos ?_ ?_
    · rcases List.exists_mem_of_ne_nil l (hlidx ▸ hlne) with ⟨j, hjl⟩
      rcases (group_mem_iff hg j).mp hjl with ⟨hjlen, hjs⟩
      refine ⟨getE out1 j, getE_mem (by rw [hlen1]; exact hjlen), ?_⟩
      rw [hnames1 j hjlen, hjs]
    · intro r hr hrs
      rcases mem_getE hr with ⟨k, hk, rfl⟩
      have hklen : k < d.programs.length := by rw [← hlen1]; exact hk
      have hks : pyStrip ((getE d.programs k).show_name) = s := by
        rw [← hnames1 k hklen]; exact hrs
      have hlg : (getE out1 k).show_logo = publicUrl base_url orn ch day s := by
        rw [hlogo1 k hklen (by rw [hks]; exact hs), hks]
      rw [hlg]
      exact ⟨pyStrip_publicUrl base_url orn ch day s hbase,
        publicUrl_startsWith base_url orn ch day s hbase⟩
  -- every first-run task's destination is in the final image cache
  have himg1 : ∀ t ∈ tasks1, t.out_path ∈ R1.2.1 := by
    intro t ht
    rw [hR1]
    exact runTasks_paths_mem net tasks1 images 0 (by rw [← hR1]; exact hokR1) t ht
  -- every second-run task hits the cache
  have htasks2 : ∀ t ∈ mkTasks (dedupUrls out1) out_root ch day, t.out_path ∈ R1.2.1 := by
    intro t ht
    rcases List.mem_map.mp ht with ⟨⟨s, u⟩, hsu, rfl⟩
    have hskey : s ∈ (dedupUrls out1).map Prod.fst := List.mem_map.mpr ⟨(s, u), hsu, rfl⟩
    rcases url_key_has_group hskey with ⟨l2, hg2, -⟩
    rw [hGout] at hg2
    rcases hurls s l2 hg2 with ⟨u1, hu1⟩
    have ht1 : (⟨s, u1, out_root ++ "/" ++ ch ++ "/" ++ day ++ "/" ++ slugify s ++ ".webp"⟩ :
        FetchTask) ∈ tasks1 := mkTasks_mem urls1 out_root ch day (mem_of_alookup_eq_some hu1)
    show out_root ++ "/" ++ ch ++ "/" ++ day ++ "/" ++ slugify s ++ ".webp" ∈ R1.2.1
    exact himg1 _ ht1
  have hrun2 : runTasks net2 (mkTasks (dedupUrls out1) out_root ch day) R1.2.1 0 =
      ((mkTasks (dedupUrls out1) out_root ch day).map
        (fun t => ⟨t.show_name, t.out_path, .cached⟩), R1.2.1, 0) :=
    runTasks_all_cached net2 _ _ 0 htasks2
  -- second-run resolution still yields the public URL for every group key
  have hres2 : ∀ s, (∃ l, (s, l) ∈ dedupIndexes d.programs) →
      resolveUrl (runTasks net2 (mkTasks (dedupUrls out1) out_root ch day) R1.2.1 0).1
        base_url orn ch day s = publicUrl base_url orn ch day s := by
    rintro s hex
    have hu2 := hurls2 s hex
    have htmem : (⟨s, out_root ++ "/" ++ ch ++ "/" ++ day ++ "/" ++ slugify s ++ ".webp",
        .cached⟩ : WorkerResult) ∈
        (runTasks net2 (mkTasks (dedupUrls out1) out_root ch day) R1.2.1 0).1 := by
      rw [hrun2]
      exact List.mem_map.mpr
        ⟨⟨s, publicUrl base_url orn ch day s,
            out_root ++ "/" ++ ch ++ "/" ++ day ++ "/" ++ slugify s ++ ".webp"⟩,
          mkTasks_mem _ out_root ch day (mem_of_alookup_eq_some hu2), rfl⟩
    have hfindsome : ((runTasks net2 (mkTasks (dedupUrls out1) out_root ch day)
        R1.2.1 0).1.find? (fun r' => r'.show_name = s)).isSome := by
      rw [List.find?_isSome]
      exact ⟨_, htmem, by simp⟩
    rcases Option.isSome_iff_exists.mp hfindsome with ⟨r0, hr0⟩
    have hr0mem := List.mem_of_find?_eq_some hr0
    rw [hrun2] at hr0mem
    rcases List.mem_map.mp hr0mem with ⟨t0, -, hr0eq⟩
    have hr0nf : r0.outcome ≠ .failed := by
      rw [← hr0eq]
      intro hcon
      cases hcon
    rw [resolveUrl, hr0]
    simp [hr0nf]
  -- the second rewrite is the identity on the first run's output
  have hout2 : rewriteAll (resolveUrl
        (runTasks net2 (mkTasks (dedupUrls out1) out_root ch day) R1.2.1 0).1
        base_url orn ch day) (dedupIndexes out1) out1 = out1 := by
    refine list_ext_getE (length_rewriteAll _ _ _) ?_
    intro k hk
    rw [length_rewriteAll] at hk
    rw [rewrite_spec _ out1 hk]
    by_cases hb : pyStrip ((getE out1 k).show_name) = ""
    · rw [if_pos hb]
    · rw [if_neg hb]
      have hklen : k < d.programs.length := by rw [← hlen1]; exact hk
      have hnameo : (getE out1 k).show_name = (getE d.programs k).show_name :=
        hnames1 k hklen
      have hnbp : pyStrip ((getE d.programs k).show_name) ≠ "" := by
        rw [← hnameo]; exact hb
      have hexg : ∃ l, (pyStrip ((getE out1 k).show_name), l) ∈ dedupIndexes d.programs := by
        rcases group_exists hklen hnbp with ⟨l, hg, -⟩
        rw [hnameo]
        exact ⟨l, hg⟩
      rw [hres2 _ hexg]
      have hlg : (getE out1 k).show_logo =
          publicUrl base_url orn ch day (pyStrip ((getE out1 k).show_name)) := by
        rw [hnameo]
        exact hlogo1 k hklen hnbp
      rw [← hlg]
  -- assemble: unfold both runs and compare componentwise
  rw [process_doc net true true out_root base_url day fs images 0 jp hfs]
  rw [← hch, hP1out, hP1img]
  have hk1 : fsGet (persistStep fs jp (.doc { d with programs := out1 }) true true) jp =
      some (.doc { d with programs := out1 }) := persist_ok_get jp _ hjpne
  show process_json_file net2 true true out_root base_url day
      (persistStep fs jp (.doc { d with programs := out1 }) true true) R1.2.1 0 jp =
    ⟨persistStep fs jp (.doc { d with programs := out1 }) true true, R1.2.1, 0⟩
  rw [process_doc net2 true true out_root base_url day _ R1.2.1 0 jp hk1, ← hch]
  have hP2out : (processPrograms net2 out_root base_url day ch
      ({ d with programs := out1 } : Document).programs R1.2.1 0).out = out1 := by
    rw [processPrograms_out]
    exact hout2
  have hP2img : (processPrograms net2 out_root base_url day ch
      ({ d with programs := out1 } : Document).programs R1.2.1 0).images = R1.2.1 := by
    rw [processPrograms_images]
    rw [show ({ d with programs := out1 } : Document).programs = out1 from rfl, hrun2]
  have hP2req : (processPrograms net2 out_root base_url day ch
      ({ d with programs := out1 } : Document).programs R1.2.1 0).reqCount = 0 := by
    rw [processPrograms_reqCount]
    rw [show ({ d with programs := out1 } : Document).programs = out1 from rfl, hrun2]
  rw [hP2out, hP2img, hP2req]
  have hdoc2 : ({ { d with programs := out1 } with programs := out1 } : Document) =
      { d with programs := out1 } := rfl
  rw [hdoc2]
  have hfs1keys : fsKeys (persistStep fs jp (.doc { d with programs := out1 }) true true) =
      fsKeys fs := by
    rw [persist_ok_eq _ (mem_fsKeys_of_get hfs) htmp]
    exact fsKeys_fsSet_mem _ (mem_fsKeys_of_get hfs)
  have hpersist2 : persistStep (persistStep fs jp (.doc { d with programs := out1 }) true true)
      jp (.doc { d with programs := out1 }) true true =
      persistStep fs jp (.doc { d with programs := out1 }) true true := by
    rw [persist_ok_eq _ (mem_fsKeys_of_get hk1) (by rw [hfs1keys]; exact htmp)]
    exact fsSet_eq_self hk1
  rw [hpersist2]

/-- C2 (witness): one show with a fetchable, decodable URL.  After a clean
first run, the second run — here on a network where every request fails,
demonstrating that none is made — returns the filesystem and cache
unchanged with a request count of zero. -/
theorem c2_second_run_cached_witness :
    process_json_file netFail true true cOutRoot cBase "today"
        (process_json_file netOk true true cOutRoot cBase "today"
          [(cPath, FileContent.doc cDocOneUrl)] [] 0 cPath).fs
        (process_json_file netOk true true cOutRoot cBase "today"
          [(cPath, FileContent.doc cDocOneUrl)] [] 0 cPath).images 0 cPath =
      ⟨(process_json_file netOk true true cOutRoot cBase "today"
          [(cPath, FileContent.doc cDocOneUrl)] [] 0 cPath).fs,
        (process_json_file netOk true true cOutRoot cBase "today"
          [(cPath, FileContent.doc cDocOneUrl)] [] 0 cPath).images, 0⟩ := by
  refine c2_second_run_cached netOk netFail cOutRoot cBase "today"
    [(cPath, FileContent.doc cDocOneUrl)] [] cPath cDocOneUrl
    (by decide) (by decide) (by decide) (by decide) ?_ ?_
  · intro s l h
    have hg : dedupIndexes cDocOneUrl.programs = [("A", [0])] := by decide
    rw [hg] at h
    have hsl : (s, l) = ("A", [0]) := List.mem_singleton.mp h
    have hs : s = "A" := congrArg Prod.fst hsl
    subst hs
    exact ⟨"http://x/a.jpg", by decide⟩
  · intro r hr
    have hres : (processPrograms netOk cOutRoot cBase "today" (pathStem cPath)
        cDocOneUrl.programs [] 0).results =
        [⟨"A", "downloaded-images/rai-1/today/a.webp", .fetched⟩] := by decide
    rw [hres] at hr
    have := List.mem_singleton.mp hr
    subst this
    decide
